import Mathlib

/-! mrkv: a word-adjacency Markov chain.

A shallow embedding of `markov.go` (package `mrkv`).

Modelling conventions.

* A Go `string` is the sequence of its runes, `List Char`.  Every string the
  program builds comes from `strings.Builder.WriteRune` on runes returned by
  `bufio.Reader.ReadRune`, so it is valid UTF-8 and equality of strings is
  equality of rune sequences.
* `ID` is `uint64`; the only IDs the program creates are `ID(len(m.words))`,
  which never wrap, so `ID` is `Nat`.
* A Go `map[ID]Word` is an association list.  Reading a missing key yields
  the zero value, writing replaces the entry of an existing key or adds a new
  entry, `len` is the number of entries.
* The order in which `range` visits a map is unspecified in Go.  Every loop
  over the map takes the order as an argument, a `RangeOrder`: a function that
  permutes the entries.
* The predicates of package `unicode` and the generator of `math/rand` are
  library code; they are parameters (`Unicode`, `Rand`).
* A run-time panic is the `Except.error` result.  The limit of the runtime on
  the capacity of a slice is the parameter `Runtime`.
* The database is what it answers and what it is given: `InitFromDB` reads a
  `Store` (the error of opening, and per query its error or the scanned rows),
  `SaveToDB` yields the rows it inserts.
-/

set_option linter.dupNamespace false

namespace mrkv

/-- Go strings, as rune sequences. -/
abbrev GoString := List Char

/-- The type `ID` (`type ID uint64`). -/
abbrev ID := Nat

/-- The struct `Word`: a token text and the IDs seen right after it. -/
structure Word where
  Word : GoString
  Next : List ID
deriving DecidableEq, Repr

/-- The zero value of `Word`, returned when a missing key is read. -/
def zeroWord : Word := ⟨[], []⟩

/-- The type `map[ID]Word`. -/
abbrev WordMap := List (ID × Word)

/-- The read `m[id]`: the zero value when `id` is not a key. -/
def WordMap.get (m : WordMap) (id : ID) : Word :=
  match m.lookup id with
  | some w => w
  | none => zeroWord

/-- The write `m[id] = w`. -/
def WordMap.set : WordMap → ID → Word → WordMap
  | [], id, w => [(id, w)]
  | (k, v) :: t, id, w => if k = id then (id, w) :: t else (k, v) :: WordMap.set t id w

/-- The keys of a map, in storage order. -/
def WordMap.keys (m : WordMap) : List ID := m.map Prod.fst

/-- An order in which `range` may visit the entries of a map. -/
structure RangeOrder where
  visit : WordMap → WordMap
  perm : ∀ m, (visit m).Perm m

/-- Visiting the entries in storage order. -/
def RangeOrder.storage : RangeOrder := ⟨fun m => m, fun m => List.Perm.refl m⟩

/-- Visiting the entries in reverse storage order. -/
def RangeOrder.reversed : RangeOrder := ⟨fun m => m.reverse, fun m => List.reverse_perm m⟩

/-- Run-time panics of the program. -/
inductive Panic where
  | indexOutOfRange
  | invalidArgumentToInt63n
  | makesliceCapOutOfRange
deriving DecidableEq, Repr

/-- What the Go runtime allows: `maxCap` is the largest capacity with which
`make([]string, 0, cap)` returns; with a larger one `make` panics
(`makeslice: cap out of range`).  A string takes at most 16 bytes and the size
of the slice in bytes has to fit a machine word of at most 64 bits, so `maxCap`
is below `2^60` on every platform. -/
structure Runtime where
  maxCap : Nat
  bound : maxCap < 2 ^ 60

/-- The limit that the runtime checks on linux/amd64: one allocation has at
most `2^48` bytes, which is `2^44` strings.  Closed examples use it with small
capacities and with the capacity `2^62`, which no runtime accepts. -/
def Runtime.amd64 : Runtime := ⟨2 ^ 44, by decide⟩

instance instDecidableEqExcept {ε α : Type} [DecidableEq ε] [DecidableEq α] :
    DecidableEq (Except ε α)
  | .error a, .error b => if h : a = b then isTrue (by rw [h]) else isFalse (by simpa using h)
  | .ok a, .ok b => if h : a = b then isTrue (by rw [h]) else isFalse (by simpa using h)
  | .error _, .ok _ => isFalse (by simp)
  | .ok _, .error _ => isFalse (by simp)

/-- A `*rand.Rand`: the `pos`-th call of `Int63n` is answered from
`stream pos`. -/
structure Rand where
  stream : Nat → Nat
  pos : Nat

/-- The method `Int63n`: it panics when `n <= 0` and otherwise returns a value
in `[0, n)`.  Any sequence of in-range answers is `stream k % n` for some
stream. -/
def Rand.Int63n (r : Rand) (n : Int) : Except Panic (Nat × Rand) :=
  if n ≤ 0 then .error .invalidArgumentToInt63n
  else .ok (r.stream r.pos % n.toNat, { r with pos := r.pos + 1 })

/-- The struct `Markov`. -/
structure Markov where
  rand : Rand
  words : WordMap

/-- The method `Init`; `newRand` is `rand.New(rand.NewSource(seed))`. -/
def Markov.Init (newRand : Int → Rand) (seed : Int) : Markov :=
  { rand := newRand seed, words := [] }

/-- The method `findWordID`: the ID of the first visited entry whose text is
`word`, or `none` for `errorWordNotFound`. -/
def Markov.findWordID (o : RangeOrder) (m : Markov) (word : GoString) : Option ID :=
  match (o.visit m.words).find? (fun e => decide (word = e.2.Word)) with
  | some e => some e.1
  | none => none

/-- The method `addNext`; `o₁` and `o₂` are the orders of its two map
traversals. -/
def Markov.addNext (o₁ o₂ : RangeOrder) (m : Markov) (word next : GoString) : Markov :=
  let (nid, m₁) : ID × Markov :=
    match m.findWordID o₁ next with
    | some nid => (nid, m)
    | none =>
      let nid := m.words.length
      (nid, { m with words := m.words.set nid ⟨next, []⟩ })
  match m₁.findWordID o₂ word with
  | none =>
    let wid := m₁.words.length
    { m₁ with words := m₁.words.set wid ⟨word, [nid]⟩ }
  | some wid =>
    let w := m₁.words.get wid
    if nid ∈ w.Next then m₁
    else { m₁ with words := m₁.words.set wid { w with Next := w.Next ++ [nid] } }

/-- The predicates of package `unicode` that the program calls. -/
structure Unicode where
  IsLetter : Char → Bool
  IsDigit : Char → Bool
  IsPunct : Char → Bool

/-- The tables of package `unicode` on ASCII: letters `A-Z a-z`, digits `0-9`,
and the punctuation `! " # % & ' ( ) * , - . / : ; ? @ [ \ ] _ { }` (the other
ASCII signs are symbols, not punctuation).  Outside ASCII the three predicates
are taken to be false; closed examples use ASCII text only. -/
def Unicode.ascii : Unicode where
  IsLetter := fun c => c.isAlpha
  IsDigit := fun c => c.isDigit
  IsPunct := fun c =>
    decide (c.toNat ∈ [33, 34, 35, 37, 38, 39, 40, 41, 42, 44, 45, 46, 47, 58, 59, 63, 64,
      91, 92, 93, 95, 123, 125])

/-- The type `MatchFun` local to `Feed`. -/
abbrev MatchFun := Char → Bool

/-- The closure `accept` of `Feed`: the first of `IsLetter`, `IsDigit`,
`IsPunct` that holds of `r`, or `none` for `nil`. -/
def accept (u : Unicode) (r : Char) : Option MatchFun :=
  [u.IsLetter, u.IsDigit, u.IsPunct].find? (fun mf => mf r)

/-- The end of one round of the outer loop of `Feed`, with `tok` the content
of the builder: `if last != "" { m.addNext(last, sb.String()) }`.  The two map
traversals of the call take the first two orders of `ords`. -/
def Markov.feedToken (ords : Nat → RangeOrder) (m : Markov) (last tok : GoString) :
    (Nat → RangeOrder) × Markov :=
  if last ≠ [] then (fun i => ords (i + 2), m.addNext (ords 0) (ords 1) last tok)
  else (ords, m)

/-- The loops of `Feed`, reading one rune at a time.  The fourth argument is
`none` while the scanner looks for the start of a token (`mf == nil`) and
`some (mf, sb)` inside the run loop, with `sb` the runes written so far.  The
last argument is the unread input together with the current rune `c`; the empty
list is `c == -1`. -/
def Markov.feedLoop (u : Unicode) :
    (Nat → RangeOrder) → Markov → GoString → Option (MatchFun × GoString) → List Char → Markov
  | _, m, _, none, [] => m
  | ords, m, last, some (_, sb), [] => (m.feedToken ords last sb).2
  | ords, m, last, none, c :: rest =>
    match accept u c with
    | none => Markov.feedLoop u ords m last none rest
    | some mf => Markov.feedLoop u ords m last (some (mf, [c])) rest
  | ords, m, last, some (mf, sb), c :: rest =>
    if mf c then Markov.feedLoop u ords m last (some (mf, sb ++ [c])) rest
    else
      match accept u c with
      | none =>
        Markov.feedLoop u (m.feedToken ords last sb).1 (m.feedToken ords last sb).2 sb none rest
      | some mf' =>
        Markov.feedLoop u (m.feedToken ords last sb).1 (m.feedToken ords last sb).2 sb
          (some (mf', [c])) rest

/-- The method `Feed` on the runes of the reader `in`; `ords` gives the orders
of the map traversals, in the order in which they happen. -/
def Markov.Feed (u : Unicode) (ords : Nat → RangeOrder) (m : Markov) (input : List Char) :
    Markov :=
  Markov.feedLoop u ords m [] none input

/-- The scanner of `Feed` alone: the loops of `Feed` with the graph left out,
returning the successive values of `sb.String()`. -/
def scanLoop (u : Unicode) : Option (MatchFun × GoString) → List Char → List GoString
  | none, [] => []
  | some (_, sb), [] => [sb]
  | none, c :: rest =>
    match accept u c with
    | none => scanLoop u none rest
    | some mf => scanLoop u (some (mf, [c])) rest
  | some (mf, sb), c :: rest =>
    if mf c then scanLoop u (some (mf, sb ++ [c])) rest
    else
      match accept u c with
      | none => sb :: scanLoop u none rest
      | some mf' => sb :: scanLoop u (some (mf', [c])) rest

/-- The token sequence of an input. -/
def tokens (u : Unicode) (input : List Char) : List GoString :=
  scanLoop u none input

/-- The loop of `Generate`.  The first argument is `chainLength - i`, the
number of rounds the counter `i` still allows; the result is the final
`chain`, the final value of the variable `word`, and the generator. -/
def Markov.GenerateLoop (m : Markov) :
    Nat → Rand → Word → List GoString → Except Panic (List GoString × Word × Rand)
  | 0, r, word, chain => .ok (chain, word, r)
  | k + 1, r, word, chain =>
    if word.Next.length = 0 then .ok (chain, word, r)
    else if word.Next.length = 1 then
      match word.Next[0]? with
      | none => .error .indexOutOfRange
      | some id =>
        let next := m.words.get id
        Markov.GenerateLoop m k r next (chain ++ [next.Word])
    else
      match r.Int63n word.Next.length with
      | .error e => .error e
      | .ok (n, r') =>
        match word.Next[n]? with
        | none => .error .indexOutOfRange
        | some id =>
          let next := m.words.get id
          Markov.GenerateLoop m k r' next (chain ++ [next.Word])

/-- The body of `Generate`, returning the chain together with the final value
of `word` and the generator: the first draw, the read of the first node,
`make([]string, 0, chainLength)`, which panics when `chainLength` is more than
the runtime allows, and the loop. -/
def Markov.GenerateWalk (m : Markov) (rt : Runtime) (chainLength : Nat) :
    Except Panic (List GoString × Word × Rand) :=
  match m.rand.Int63n m.words.length with
  | .error e => .error e
  | .ok (n, r) =>
    let word := m.words.get n
    if rt.maxCap < chainLength then .error .makesliceCapOutOfRange
    else Markov.GenerateLoop m (chainLength - 1) r word [word.Word]

/-- The method `Generate`: the returned chain. -/
def Markov.Generate (m : Markov) (rt : Runtime) (chainLength : Nat) :
    Except Panic (List GoString) :=
  match m.GenerateWalk rt chainLength with
  | .error e => .error e
  | .ok (chain, _, _) => .ok chain

/-- The index expression `s[i]` on a slice of runes. -/
def runeAt (s : GoString) (i : Nat) : Except Panic Char :=
  match s[i]? with
  | some c => .ok c
  | none => .error .indexOutOfRange

/-- The test of `WordJoin` on the last rune `lc` of a word and the first rune
`fc` of the following one. -/
def spaceCond (u : Unicode) (lc fc : Char) : Bool :=
  lc = '.' || lc = ',' || lc = '?' || lc = '!' || lc = ';' || lc = ':' ||
    (u.IsLetter lc || u.IsDigit lc) && (u.IsLetter fc || u.IsDigit fc)

/-- The loop of `WordJoin` on the words from index `i` on, with `text` the
string built so far. -/
def WordJoinLoop (u : Unicode) : GoString → List GoString → Except Panic GoString
  | text, [] => .ok text
  | text, [w] => .ok (text ++ w)
  | text, w :: next :: rest =>
    match runeAt next 0 with
    | .error e => .error e
    | .ok fc =>
      match runeAt w (w.length - 1) with
      | .error e => .error e
      | .ok lc =>
        if spaceCond u lc fc then WordJoinLoop u (text ++ w ++ [' ']) (next :: rest)
        else WordJoinLoop u (text ++ w) (next :: rest)

/-- The function `WordJoin`. -/
def WordJoin (u : Unicode) (words : List GoString) : Except Panic GoString :=
  WordJoinLoop u [] words

/-- The second half of `addNext`, from `wid, err := m.findWordID(word)` on,
for the graph `m₁` and the ID `nid` that the first half leaves. -/
def Markov.linkNext (o₂ : RangeOrder) (m₁ : Markov) (nid : ID) (word : GoString) : Markov :=
  match m₁.findWordID o₂ word with
  | none =>
    let wid := m₁.words.length
    { m₁ with words := m₁.words.set wid ⟨word, [nid]⟩ }
  | some wid =>
    let w := m₁.words.get wid
    if nid ∈ w.Next then m₁
    else { m₁ with words := m₁.words.set wid { w with Next := w.Next ++ [nid] } }

/-! ## Definitions that follow the wording of the specification -/

/-- The rule of the detokenizer for the gap after token `i`: a space is due
when the last character of token `i` is one of `. , ? ! ; :`, or when that
character and the first character of token `i+1` are both letters or digits. -/
def spaceAfter (u : Unicode) (words : List GoString) (i : Nat) : Bool :=
  match words[i]?, words[i + 1]? with
  | some a, some b =>
    match a.getLast?, b.head? with
    | some lc, some fc =>
      decide (lc ∈ ['.', ',', '?', '!', ';', ':']) ||
        ((u.IsLetter lc || u.IsDigit lc) && (u.IsLetter fc || u.IsDigit fc))
    | _, _ => false
  | _, _ => false

/-- The detokenizer as the specification words it: the tokens in order, token
`i` followed by one space exactly when `spaceAfter` holds of `i`. -/
def joinSpec (u : Unicode) (words : List GoString) : GoString :=
  ((List.range words.length).map
    (fun i => words.getD i [] ++ if spaceAfter u words i then [' '] else [])).flatten

/-- The driving loop of `Feed` over a token sequence: one round of the outer
loop for each token, `last` being the previous token. -/
def Markov.feedTokens : (Nat → RangeOrder) → Markov → GoString → List GoString → Markov
  | _, m, _, [] => m
  | ords, m, last, tok :: rest =>
    Markov.feedTokens (m.feedToken ords last tok).1 (m.feedToken ords last tok).2 tok rest

/-- A token sequence of an input, as the specification words it: a character
that is in none of the three categories is skipped; otherwise the category
`mf` of the character starts a token, made of that character and the
characters `t` that follow it and pass `mf`, up to the end of the input or a
character that fails `mf`. -/
inductive Tokenized (u : Unicode) : List Char → List GoString → Prop
  | done : Tokenized u [] []
  | skip (c : Char) (rest : List Char) (ts : List GoString) :
      accept u c = none → Tokenized u rest ts → Tokenized u (c :: rest) ts
  | token (c : Char) (mf : MatchFun) (t rest : List Char) (ts : List GoString) :
      accept u c = some mf → (∀ x ∈ c :: t, mf x = true) →
      (∀ d ∈ rest.head?, mf d = false) → Tokenized u rest ts →
      Tokenized u (c :: (t ++ rest)) ((c :: t) :: ts)

/-- IDs form the range `[0, N)`, `N` being the number of nodes. -/
def Contiguous (m : WordMap) : Prop :=
  (∀ i ∈ m.keys, i < m.length) ∧ ∀ i, i < m.length → i ∈ m.keys

instance (m : WordMap) : Decidable (Contiguous m) := by
  unfold Contiguous; infer_instance

/-- No dangling edges: every ID in a successors list is a key of the map. -/
def NoDangling (m : WordMap) : Prop :=
  ∀ e ∈ m, ∀ j ∈ e.2.Next, j ∈ m.keys

instance (m : WordMap) : Decidable (NoDangling m) := by
  unfold NoDangling; infer_instance

/-- The graph of the text `a b a c`, with a generator whose `k`-th raw value
is `k + 1`. -/
def demoGraph : Markov :=
  { rand := ⟨fun k => k + 1, 0⟩
    words := [(0, ⟨['b'], [1]⟩), (1, ⟨['a'], [0, 2]⟩), (2, ⟨['c'], []⟩)] }

/-- The successor relation on token texts: the node with text `a` has the ID
of the node with text `b` among its successors. -/
def Edge (m : WordMap) (a b : GoString) : Prop :=
  ∃ i wi j wj, (i, wi) ∈ m ∧ (j, wj) ∈ m ∧ wi.Word = a ∧ wj.Word = b ∧ j ∈ wi.Next

/-- The graphs that `Init`, `addNext` and `Feed` can build, whatever the
orders of the map traversals are. -/
inductive Reachable (u : Unicode) : Markov → Prop
  | init (newRand : Int → Rand) (seed : Int) : Reachable u (Markov.Init newRand seed)
  | addNext (o₁ o₂ : RangeOrder) (m : Markov) (word next : GoString) :
      Reachable u m → Reachable u (m.addNext o₁ o₂ word next)
  | feed (ords : Nat → RangeOrder) (m : Markov) (input : List Char) :
      Reachable u m → Reachable u (m.Feed u ords input)

/-- The invariant of the graph under construction, read through `m[id]`: the
keys are `0, …, N-1` in storage order, distinct IDs carry distinct texts,
successors are IDs below `N`, and no successors list repeats an ID. -/
structure Inv (m : WordMap) : Prop where
  keys : m.keys = List.range m.length
  inj : ∀ i j, i < m.length → j < m.length → (m.get i).Word = (m.get j).Word → i = j
  closed : ∀ i, i < m.length → ∀ j : Nat, j ∈ (m.get i).Next → j < m.length
  nodup : ∀ i, i < m.length → (m.get i).Next.Nodup

/-- What one call `addNext(word, next)` does to a graph `m` that satisfies
the invariant, `m'` being the graph after the call. -/
structure StepSpec (m m' : WordMap) (word next : GoString) : Prop where
  inv : Inv m'
  mono : m.length ≤ m'.length
  text : ∀ i, i < m.length → (m'.get i).Word = (m.get i).Word
  edge : ∀ a b, Edge m' a b ↔ Edge m a b ∨ (a = word ∧ b = next)
  nodeWord : ∃ i, i < m'.length ∧ (m'.get i).Word = word
  nodeNext : ∃ i, i < m'.length ∧ (m'.get i).Word = next

/-- Adding a text at the end of a list of texts unless it is in the list. -/
def addText (l : List GoString) (x : GoString) : List GoString :=
  if x ∈ l then l else l ++ [x]

/-- The distinct texts of a sequence, in the order of their first
occurrences. -/
def firstSeen (l : List GoString) : List GoString :=
  l.foldl addText []

/-- The texts of the nodes, in storage order. -/
def WordMap.texts (m : WordMap) : List GoString :=
  m.map (fun e => e.2.Word)

/-- The text of the scenario `Down the rabbit hole.` -/
def rabbitText : List Char := "Down the rabbit hole.".toList

/-- The graph of `rabbitText`: the node map that `Feed` builds from it. -/
def rabbitWords : WordMap :=
  [(0, ⟨"the".toList, [2]⟩), (1, ⟨"Down".toList, [0]⟩), (2, ⟨"rabbit".toList, [3]⟩),
    (3, ⟨"hole".toList, [4]⟩), (4, ⟨".".toList, []⟩)]

/-- The chain of the scenario. -/
def rabbitChain : List GoString :=
  ["Down".toList, "the".toList, "rabbit".toList, "hole".toList, ".".toList]

/-- Errors of package `database/sql`. -/
inductive StoreError where
  | openFailed
  | queryFailed
  | scanFailed
deriving DecidableEq, Repr

/-- What the database answers to `InitFromDB`: the error of `sql.Open`, if
any, and for each of the two queries its error or the results of `Scan` on the
rows that `Next` yields, in the order in which they are read. -/
structure Store where
  openErr : Option StoreError
  wordRows : Except StoreError (List (Except StoreError (ID × GoString)))
  nextRows : Except StoreError (List (Except StoreError (ID × ID)))

/-- The body of the first loop of `InitFromDB`: `m.words[id] = Word{Word: word}`. -/
def WordMap.addWordRow (ws : WordMap) (row : ID × GoString) : WordMap :=
  ws.set row.1 ⟨row.2, []⟩

/-- The body of the second loop of `InitFromDB`: `word := m.words[id]`,
`word.Next = append(word.Next, nid)`, `m.words[id] = word`. -/
def WordMap.addNextRow (ws : WordMap) (row : ID × ID) : WordMap :=
  let word := ws.get row.1
  ws.set row.1 { word with Next := word.Next ++ [row.2] }

/-- The first loop of `InitFromDB`; it stops at the first `Scan` that fails. -/
def loadWordRows : WordMap → List (Except StoreError (ID × GoString)) →
    WordMap × Option StoreError
  | ws, [] => (ws, none)
  | ws, .error e :: _ => (ws, some e)
  | ws, .ok row :: rest => loadWordRows (ws.addWordRow row) rest

/-- The second loop of `InitFromDB`; it stops at the first `Scan` that fails. -/
def loadNextRows : WordMap → List (Except StoreError (ID × ID)) → WordMap × Option StoreError
  | ws, [] => (ws, none)
  | ws, .error e :: _ => (ws, some e)
  | ws, .ok row :: rest => loadNextRows (ws.addNextRow row) rest

/-- The method `InitFromDB` on the answers `db` of the database: the receiver
after the call and the returned error, `none` for `nil`.  The receiver keeps
what was written to it before an error is returned. -/
def Markov.InitFromDB (newRand : Int → Rand) (m : Markov) (db : Store) (seed : Int) :
    Markov × Option StoreError :=
  let m : Markov := { m with rand := newRand seed }
  match db.openErr with
  | some e => (m, some e)
  | none =>
    match db.wordRows with
    | .error e => (m, some e)
    | .ok wordRows =>
      match loadWordRows [] wordRows with
      | (ws, some e) => ({ m with words := ws }, some e)
      | (ws, none) =>
        match db.nextRows with
        | .error e => ({ m with words := ws }, some e)
        | .ok nextRows =>
          ({ m with words := (loadNextRows ws nextRows).1 }, (loadNextRows ws nextRows).2)

/-- The rows that `SaveToDB` inserts into the tables `word` and `next`, in
the order of its two traversals of the map.  The store is the two lists of
rows; the errors of the database calls are left out. -/
def Markov.SaveToDB (o₁ o₂ : RangeOrder) (m : Markov) : List (ID × GoString) × List (ID × ID) :=
  ((o₁.visit m.words).map (fun e => (e.1, e.2.Word)),
    (o₂.visit m.words).flatMap (fun e => e.2.Next.map (fun next => (e.1, next))))

/-- A store that opens, answers both queries and scans every row. -/
def Store.ofRows (wordRows : List (ID × GoString)) (nextRows : List (ID × ID)) : Store :=
  { openErr := none
    wordRows := .ok (wordRows.map .ok)
    nextRows := .ok (nextRows.map .ok) }

/-- The graphs that `Init` followed by `Feed` calls can build, whatever the
orders of the map traversals are. -/
inductive FeedReachable (u : Unicode) : Markov → Prop
  | init (newRand : Int → Rand) (seed : Int) : FeedReachable u (Markov.Init newRand seed)
  | feed (ords : Nat → RangeOrder) (m : Markov) (input : List Char) :
      FeedReachable u m → FeedReachable u (m.Feed u ords input)

/-! ## The detokenizer -/

theorem runeAt_zero_cons (c : Char) (s : GoString) : runeAt (c :: s) 0 = .ok c := by
  simp [runeAt]

theorem runeAt_last (s : GoString) (h : s ≠ []) :
    runeAt s (s.length - 1) = .ok (s.getLast h) := by
  unfold runeAt
  have : s[s.length - 1]? = some (s.getLast h) := by
    rw [List.getLast_eq_getElem]
    exact List.getElem?_eq_getElem _
  rw [this]

theorem spaceCond_eq (u : Unicode) (lc fc : Char) :
    spaceCond u lc fc =
      (decide (lc ∈ ['.', ',', '?', '!', ';', ':']) ||
        ((u.IsLetter lc || u.IsDigit lc) && (u.IsLetter fc || u.IsDigit fc))) := by
  unfold spaceCond
  simp only [List.mem_cons, List.mem_singleton, List.not_mem_nil, or_false, Bool.decide_or]
  simp [Bool.or_assoc]

theorem joinSpec_nil (u : Unicode) : joinSpec u [] = [] := rfl

theorem joinSpec_single (u : Unicode) (w : GoString) : joinSpec u [w] = w := by
  simp [joinSpec, spaceAfter, List.range_succ]

theorem spaceAfter_succ (u : Unicode) (w : GoString) (ws : List GoString) (i : Nat) :
    spaceAfter u (w :: ws) (i + 1) = spaceAfter u ws i := by
  simp [spaceAfter]

theorem joinSpec_cons_cons (u : Unicode) (w next : GoString) (rest : List GoString) :
    joinSpec u (w :: next :: rest) =
      w ++ (if spaceAfter u (w :: next :: rest) 0 then [' '] else []) ++
        joinSpec u (next :: rest) := by
  unfold joinSpec
  rw [List.length_cons, List.range_succ_eq_map, List.map_cons, List.flatten_cons, List.map_map]
  congr 1
  congr 1
  apply List.map_congr_left
  intro i _
  simp only [Function.comp, spaceAfter_succ]
  simp

theorem WordJoinLoop_eq (u : Unicode) (words : List GoString) :
    ∀ text : GoString, (∀ w ∈ words, w ≠ []) →
      WordJoinLoop u text words = .ok (text ++ joinSpec u words) := by
  induction words with
  | nil => intro text _; simp [WordJoinLoop, joinSpec_nil]
  | cons w ws ih =>
    intro text h
    cases ws with
    | nil => simp [WordJoinLoop, joinSpec_single]
    | cons next rest =>
      have hw : w ≠ [] := h w (by simp)
      have hn : next ≠ [] := h next (by simp)
      obtain ⟨fc, nt, rfl⟩ := List.exists_cons_of_ne_nil hn
      have hsp : spaceAfter u (w :: (fc :: nt) :: rest) 0 = spaceCond u (w.getLast hw) fc := by
        simp [spaceAfter, List.getLast?_eq_getLast _ hw, spaceCond_eq]
      rw [WordJoinLoop, runeAt_zero_cons, runeAt_last w hw, joinSpec_cons_cons, hsp]
      simp only
      have h' : ∀ x ∈ (fc :: nt) :: rest, x ≠ [] := fun x hx => h x (List.mem_cons_of_mem _ hx)
      split
      · rw [ih _ h']; simp
      · rw [ih _ h']; simp

/-- C3: on a list of non-empty tokens `WordJoin` returns the tokens in order,
token `i` followed by exactly one space when its last character is one of
`. , ? ! ; :` or when its last character and the first character of token
`i+1` are both letters or digits, and by nothing otherwise; the empty list
gives the empty string and a one-token list gives that token. -/
theorem WordJoin_spec (u : Unicode) (words : List GoString) (h : ∀ w ∈ words, w ≠ []) :
    WordJoin u words = .ok (joinSpec u words) ∧
      WordJoin u [] = .ok [] ∧ ∀ w : GoString, WordJoin u [w] = .ok w := by
  refine ⟨?_, rfl, fun w => ?_⟩
  · simpa using WordJoinLoop_eq u words [] h
  · simp [WordJoin, WordJoinLoop]

theorem WordJoin_spec_witness :
    (∀ w ∈ [['D', 'o'], ['a', '1'], ['-'], ['x'], ['.'], ['('], ['y']], w ≠ ([] : GoString)) ∧
      (WordJoin .ascii [['D', 'o'], ['a', '1'], ['-'], ['x'], ['.'], ['('], ['y']] =
          .ok (joinSpec .ascii [['D', 'o'], ['a', '1'], ['-'], ['x'], ['.'], ['('], ['y']]) ∧
        WordJoin .ascii [] = .ok [] ∧ ∀ w : GoString, WordJoin .ascii [w] = .ok w) ∧
      joinSpec .ascii [['D', 'o'], ['a', '1'], ['-'], ['x'], ['.'], ['('], ['y']] =
        ['D', 'o', ' ', 'a', '1', '-', 'x', '.', ' ', '(', 'y'] :=
  ⟨by decide,
    WordJoin_spec .ascii [['D', 'o'], ['a', '1'], ['-'], ['x'], ['.'], ['('], ['y']] (by decide),
    by decide⟩


/-! ## The scanner of `Feed` -/

theorem accept_some_holds (u : Unicode) (c : Char) (mf : MatchFun)
    (h : accept u c = some mf) : mf c = true := by
  unfold accept at h
  have := List.find?_some (p := fun f : MatchFun => f c) h
  simpa using this

theorem accept_some_mem (u : Unicode) (c : Char) (mf : MatchFun)
    (h : accept u c = some mf) : mf = u.IsLetter ∨ mf = u.IsDigit ∨ mf = u.IsPunct := by
  unfold accept at h
  have := List.mem_of_find?_eq_some h
  simpa using this

theorem accept_ne_none_of_holds (u : Unicode) (c x : Char) (mf : MatchFun)
    (h : accept u c = some mf) (hx : mf x = true) : accept u x ≠ none := by
  have hm := accept_some_mem u c mf h
  unfold accept
  rw [Ne, List.find?_eq_none]
  intro hall
  rcases hm with rfl | rfl | rfl
  · exact hall _ (by simp) hx
  · exact hall _ (by simp) hx
  · exact hall _ (by simp) hx

theorem scanLoop_run (u : Unicode) (mf : MatchFun) (input : List Char) :
    ∀ sb : GoString, scanLoop u (some (mf, sb)) input =
      (sb ++ input.takeWhile mf) :: scanLoop u none (input.dropWhile mf) := by
  induction input with
  | nil => intro sb; simp [scanLoop]
  | cons c rest ih =>
    intro sb
    by_cases hc : mf c = true
    · rw [scanLoop, if_pos hc, ih, List.takeWhile_cons_of_pos hc, List.dropWhile_cons_of_pos hc]
      simp
    · rw [scanLoop, if_neg hc, List.takeWhile_cons_of_neg hc, List.dropWhile_cons_of_neg hc]
      cases ha : accept u c with
      | none => simp [scanLoop, ha]
      | some mf' => simp [scanLoop, ha]

theorem tokens_cons_none (u : Unicode) (c : Char) (rest : List Char)
    (h : accept u c = none) : tokens u (c :: rest) = tokens u rest := by
  simp [tokens, scanLoop, h]

theorem tokens_cons_some (u : Unicode) (c : Char) (rest : List Char) (mf : MatchFun)
    (h : accept u c = some mf) :
    tokens u (c :: rest) = (c :: rest.takeWhile mf) :: tokens u (rest.dropWhile mf) := by
  simp [tokens, scanLoop, h, scanLoop_run]

theorem tokens_tokenized_aux (u : Unicode) :
    ∀ (n : Nat) (input : List Char), input.length ≤ n → Tokenized u input (tokens u input) := by
  intro n
  induction n with
  | zero =>
    intro input h
    have : input = [] := List.length_eq_zero.mp (Nat.le_zero.mp h)
    subst this
    exact Tokenized.done
  | succ n ih =>
    intro input h
    cases input with
    | nil => exact Tokenized.done
    | cons c rest =>
      have hr : rest.length ≤ n := by simpa using h
      cases ha : accept u c with
      | none =>
        rw [tokens_cons_none u c rest ha]
        exact Tokenized.skip c rest _ ha (ih rest hr)
      | some mf =>
        rw [tokens_cons_some u c rest mf ha]
        have hd : (rest.dropWhile mf).length ≤ n :=
          Nat.le_trans (List.dropWhile_sublist mf).length_le hr
        have key := Tokenized.token c mf (rest.takeWhile mf) (rest.dropWhile mf) _ ha
          (by
            intro x hx
            rcases List.mem_cons.mp hx with rfl | hx
            · exact accept_some_holds u _ mf ha
            · exact List.mem_takeWhile_imp hx)
          (by
            intro d hd'
            have := List.head?_dropWhile_not mf rest
            rw [Option.mem_def] at hd'
            rw [hd'] at this
            simpa using this)
          (ih _ hd)
        rwa [List.takeWhile_append_dropWhile] at key

theorem takeWhile_run (mf : MatchFun) (t rest : List Char) (ht : ∀ x ∈ t, mf x = true)
    (hr : ∀ d ∈ rest.head?, mf d = false) :
    (t ++ rest).takeWhile mf = t ∧ (t ++ rest).dropWhile mf = rest := by
  induction t with
  | nil =>
    cases rest with
    | nil => simp
    | cons d r =>
      have : mf d = false := hr d (by simp)
      simp [List.takeWhile_cons, List.dropWhile_cons, this]
  | cons a t ih =>
    have ha : mf a = true := ht a (by simp)
    have := ih (fun x hx => ht x (List.mem_cons_of_mem _ hx))
    simp [List.takeWhile_cons, List.dropWhile_cons, ha, this]

theorem tokenized_unique (u : Unicode) (input : List Char) (ts : List GoString)
    (h : Tokenized u input ts) : ts = tokens u input := by
  induction h with
  | done => rfl
  | skip c rest ts ha _ ih => rw [tokens_cons_none u c rest ha, ih]
  | token c mf t rest ts ha ht hr _ ih =>
    obtain ⟨h1, h2⟩ := takeWhile_run mf t rest (fun x hx => ht x (List.mem_cons_of_mem _ hx)) hr
    rw [tokens_cons_some u c _ mf ha, h1, h2, ih]

theorem tokenized_nonempty (u : Unicode) (input : List Char) (ts : List GoString)
    (h : Tokenized u input ts) : [] ∉ ts := by
  induction h with
  | done => simp
  | skip _ _ _ _ _ ih => exact ih
  | token c mf t rest ts _ _ _ _ ih => simp [ih]

theorem tokenized_chars (u : Unicode) (input : List Char) (ts : List GoString)
    (h : Tokenized u input ts) : ∀ t ∈ ts, ∀ x ∈ t, accept u x ≠ none := by
  induction h with
  | done => simp
  | skip _ _ _ _ _ ih => exact ih
  | token c mf t rest ts ha ht _ _ ih =>
    intro t' ht' x hx
    rcases List.mem_cons.mp ht' with rfl | ht'
    · exact accept_ne_none_of_holds u c x mf ha (ht x hx)
    · exact ih t' ht' x hx

theorem feedLoop_eq_feedTokens (u : Unicode) (input : List Char) :
    ∀ (ords : Nat → RangeOrder) (m : Markov) (last : GoString)
      (st : Option (MatchFun × GoString)),
      Markov.feedLoop u ords m last st input =
        Markov.feedTokens ords m last (scanLoop u st input) := by
  induction input with
  | nil =>
    intro ords m last st
    cases st with
    | none => simp [Markov.feedLoop, scanLoop, Markov.feedTokens]
    | some p => obtain ⟨mf, sb⟩ := p; simp [Markov.feedLoop, scanLoop, Markov.feedTokens]
  | cons c rest ih =>
    intro ords m last st
    cases st with
    | none =>
      cases ha : accept u c with
      | none => simp [Markov.feedLoop, scanLoop, ha, ih]
      | some mf => simp [Markov.feedLoop, scanLoop, ha, ih]
    | some p =>
      obtain ⟨mf, sb⟩ := p
      by_cases hc : mf c = true
      · simp [Markov.feedLoop, scanLoop, hc, ih]
      · cases ha : accept u c with
        | none => simp [Markov.feedLoop, scanLoop, hc, ha, ih, Markov.feedTokens]
        | some mf' => simp [Markov.feedLoop, scanLoop, hc, ha, ih, Markov.feedTokens]

theorem Feed_eq_feedTokens (u : Unicode) (ords : Nat → RangeOrder) (m : Markov)
    (input : List Char) :
    Markov.Feed u ords m input = Markov.feedTokens ords m [] (tokens u input) :=
  feedLoop_eq_feedTokens u input ords m [] none

/-- C4: the scanner of `Feed` hands the rounds of its outer loop the token
sequence `tokens u input`, and that sequence is the one tokenization of the
input into maximal runs: each token starts at a character of some category
`mf` (letter, else digit, else punctuation), all its characters pass `mf`, and
it stops exactly at the end of the input or at the first character that fails
`mf`; no token is empty, and a character in none of the categories is in no
token. -/
theorem tokens_maximal_runs (u : Unicode) (input : List Char) :
    (∀ (ords : Nat → RangeOrder) (m : Markov),
        Markov.Feed u ords m input = Markov.feedTokens ords m [] (tokens u input)) ∧
      Tokenized u input (tokens u input) ∧
      (∀ ts, Tokenized u input ts → ts = tokens u input) ∧
      [] ∉ tokens u input ∧
      ∀ t ∈ tokens u input, ∀ x ∈ t, accept u x ≠ none :=
  have h := tokens_tokenized_aux u input.length input (Nat.le_refl _)
  ⟨fun ords m => Feed_eq_feedTokens u ords m input, h,
    fun ts hts => tokenized_unique u input ts hts,
    tokenized_nonempty u input _ h, tokenized_chars u input _ h⟩


/-! ## The generator -/

theorem Int63n_pos (r : Rand) (n : Nat) (h : 0 < n) :
    r.Int63n n = .ok (r.stream r.pos % n, { r with pos := r.pos + 1 }) := by
  unfold Rand.Int63n
  have : ¬ ((n : Int) ≤ 0) := by omega
  simp [this]

theorem Int63n_zero (r : Rand) : r.Int63n (0 : Nat) = .error .invalidArgumentToInt63n := by
  simp [Rand.Int63n]

/-- The last ID of a walk that starts at `cur` and goes on through `ids`. -/
theorem lastId_cons (cur s : ID) (ids : List ID) :
    (cur :: s :: ids).getLast (List.cons_ne_nil _ _) = (s :: ids).getLast (List.cons_ne_nil _ _) :=
  List.getLast_cons (List.cons_ne_nil s ids)

theorem GenerateLoop_spec (m : Markov) :
    ∀ (k : Nat) (r : Rand) (cur : ID) (chain : List GoString),
      ∃ (ids : List ID) (r' : Rand),
        m.GenerateLoop k r (m.words.get cur) chain =
            .ok (chain ++ ids.map (fun i => (m.words.get i).Word),
              m.words.get ((cur :: ids).getLast (List.cons_ne_nil _ _)), r') ∧
          List.Chain (fun i j => j ∈ (m.words.get i).Next) cur ids ∧
          (∀ i j, (i, j) ∈ (cur :: ids).zip ids → ∀ s, (m.words.get i).Next = [s] → j = s) ∧
          ids.length ≤ k ∧
          (ids.length < k →
            (m.words.get ((cur :: ids).getLast (List.cons_ne_nil _ _))).Next = []) := by
  intro k
  induction k with
  | zero =>
    intro r cur chain
    exact ⟨[], r, by simp [Markov.GenerateLoop], List.Chain.nil, by simp, by simp, by simp⟩
  | succ k ih =>
    intro r cur chain
    cases hN : (m.words.get cur).Next with
    | nil =>
      exact ⟨[], r, by simp [Markov.GenerateLoop, hN], List.Chain.nil, by simp, by simp,
        by simp [hN]⟩
    | cons a t =>
      have step : ∀ (s : ID) (r₁ : Rand), s ∈ (m.words.get cur).Next →
          m.GenerateLoop (k + 1) r (m.words.get cur) chain =
            m.GenerateLoop k r₁ (m.words.get s) (chain ++ [(m.words.get s).Word]) →
          ∃ (ids : List ID) (r' : Rand),
            m.GenerateLoop (k + 1) r (m.words.get cur) chain =
                .ok (chain ++ ids.map (fun i => (m.words.get i).Word),
                  m.words.get ((cur :: ids).getLast (List.cons_ne_nil _ _)), r') ∧
              List.Chain (fun i j => j ∈ (m.words.get i).Next) cur ids ∧
              (∀ i j, (i, j) ∈ (cur :: ids).zip ids →
                ∀ s, (m.words.get i).Next = [s] → j = s) ∧
              ids.length ≤ k + 1 ∧
              (ids.length < k + 1 →
                (m.words.get ((cur :: ids).getLast (List.cons_ne_nil _ _))).Next = []) := by
        intro s r₁ hs heq
        obtain ⟨ids, r', h1, h2, h3, h4, h5⟩ := ih r₁ s (chain ++ [(m.words.get s).Word])
        refine ⟨s :: ids, r', ?_, List.Chain.cons hs h2, ?_, by simpa using h4, ?_⟩
        · rw [heq, h1, lastId_cons]
          simp
        · intro i j hij s' hs'
          rw [List.zip_cons_cons, List.mem_cons] at hij
          rcases hij with hij | hij
          · obtain ⟨rfl, rfl⟩ := Prod.mk.inj hij
            rw [hs'] at hs
            simpa using hs
          · exact h3 i j hij s' hs'
        · intro hlt
          rw [lastId_cons]
          exact h5 (by simpa using hlt)
      cases t with
      | nil =>
        apply step a r
        · simp [hN]
        · rw [Markov.GenerateLoop]
          simp [hN]
      | cons b t =>
        have hlen : 0 < (a :: b :: t).length := by simp
        have hlt : r.stream r.pos % (a :: b :: t).length < (a :: b :: t).length :=
          Nat.mod_lt _ hlen
        apply step ((a :: b :: t)[r.stream r.pos % (a :: b :: t).length])
          { r with pos := r.pos + 1 }
        · rw [hN]
          exact List.getElem_mem _
        · rw [Markov.GenerateLoop]
          rw [hN, Int63n_pos r _ hlen]
          simp only [List.getElem?_eq_getElem hlt]
          simp

theorem GenerateWalk_spec (m : Markov) (rt : Runtime) (n : Nat) (h : 0 < m.words.length)
    (hcap : n ≤ rt.maxCap) :
    ∃ (ids : List ID) (r' : Rand),
      m.GenerateWalk rt n =
          .ok (((m.rand.stream m.rand.pos % m.words.length) :: ids).map
              (fun i => (m.words.get i).Word),
            m.words.get (((m.rand.stream m.rand.pos % m.words.length) :: ids).getLast
              (List.cons_ne_nil _ _)), r') ∧
        List.Chain (fun i j => j ∈ (m.words.get i).Next)
          (m.rand.stream m.rand.pos % m.words.length) ids ∧
        (∀ i j, (i, j) ∈ ((m.rand.stream m.rand.pos % m.words.length) :: ids).zip ids →
          ∀ s, (m.words.get i).Next = [s] → j = s) ∧
        ids.length ≤ n - 1 ∧
        (ids.length < n - 1 →
          (m.words.get (((m.rand.stream m.rand.pos % m.words.length) :: ids).getLast
            (List.cons_ne_nil _ _))).Next = []) := by
  obtain ⟨ids, r', h1, h2, h3, h4, h5⟩ :=
    GenerateLoop_spec m (n - 1) { m.rand with pos := m.rand.pos + 1 }
      (m.rand.stream m.rand.pos % m.words.length)
      [(m.words.get (m.rand.stream m.rand.pos % m.words.length)).Word]
  refine ⟨ids, r', ?_, h2, h3, h4, h5⟩
  unfold Markov.GenerateWalk
  rw [Int63n_pos m.rand _ h]
  simp only
  rw [if_neg (Nat.not_lt.mpr hcap), h1]
  simp

/-- On a graph with at least one node, `make` panics when `chainLength` is more
than the runtime allows. -/
theorem GenerateWalk_cap (m : Markov) (rt : Runtime) (n : Nat) (h : 0 < m.words.length)
    (hcap : rt.maxCap < n) : m.GenerateWalk rt n = .error .makesliceCapOutOfRange := by
  unfold Markov.GenerateWalk
  rw [Int63n_pos m.rand _ h]
  simp only
  rw [if_pos hcap]

theorem Generate_cap (m : Markov) (rt : Runtime) (n : Nat) (h : 0 < m.words.length)
    (hcap : rt.maxCap < n) : m.Generate rt n = .error .makesliceCapOutOfRange := by
  unfold Markov.Generate
  rw [GenerateWalk_cap m rt n h hcap]

theorem Generate_of_walk (m : Markov) (rt : Runtime) (n : Nat) (chain : List GoString)
    (word : Word) (r : Rand) (h : m.GenerateWalk rt n = .ok (chain, word, r)) :
    m.Generate rt n = .ok chain := by
  unfold Markov.Generate
  rw [h]

theorem walk_of_Generate (m : Markov) (rt : Runtime) (n : Nat) (chain : List GoString)
    (h : m.Generate rt n = .ok chain) :
    ∃ (word : Word) (r : Rand), m.GenerateWalk rt n = .ok (chain, word, r) := by
  unfold Markov.Generate at h
  cases hw : m.GenerateWalk rt n with
  | error e => rw [hw] at h; cases h
  | ok res =>
    obtain ⟨c, w, r⟩ := res
    rw [hw] at h
    injection h with h
    exact ⟨w, r, by rw [← h]⟩

theorem Generate_empty (m : Markov) (rt : Runtime) (n : Nat) (h : m.words.length = 0) :
    m.Generate rt n = .error .invalidArgumentToInt63n := by
  unfold Markov.Generate Markov.GenerateWalk
  rw [h, Int63n_zero]

/-- When `Generate` returns a chain the graph has a node and `chainLength` is
within what the runtime allows. -/
theorem Generate_ok_cap (m : Markov) (rt : Runtime) (n : Nat) (chain : List GoString)
    (h : m.Generate rt n = .ok chain) : 0 < m.words.length ∧ n ≤ rt.maxCap := by
  rcases Nat.eq_zero_or_pos m.words.length with h0 | hpos
  · rw [Generate_empty m rt n h0] at h
    cases h
  · refine ⟨hpos, Nat.not_lt.mp ?_⟩
    intro hcap
    rw [Generate_cap m rt n hpos hcap] at h
    cases h

theorem get_mem_of_key (m : WordMap) (i : ID) (h : i ∈ m.keys) : (i, m.get i) ∈ m := by
  induction m with
  | nil => simp [WordMap.keys] at h
  | cons e t ih =>
    obtain ⟨k, v⟩ := e
    by_cases hk : i = k
    · subst hk
      simp [WordMap.get, List.lookup]
    · have ht : i ∈ WordMap.keys t := by
        simp only [WordMap.keys, List.map_cons, List.mem_cons] at h
        rcases h with h | h
        · exact absurd h hk
        · exact h
      have hb : (i == k) = false := by simpa using hk
      have : WordMap.get ((k, v) :: t) i = WordMap.get t i := by
        simp [WordMap.get, List.lookup, hb]
      rw [this]
      exact List.mem_cons_of_mem _ (ih ht)

theorem chain_keys (m : WordMap) (hd : NoDangling m) (cur : ID) (ids : List ID)
    (hcur : cur ∈ m.keys) (hch : List.Chain (fun i j => j ∈ (m.get i).Next) cur ids) :
    ∀ i ∈ ids, i ∈ m.keys := by
  induction ids generalizing cur with
  | nil => simp
  | cons a t ih =>
    rw [List.chain_cons] at hch
    have ha : a ∈ m.keys := hd _ (get_mem_of_key m cur hcur) a hch.1
    intro i hi
    rcases List.mem_cons.mp hi with rfl | hi
    · exact ha
    · exact ih a ha hch.2 i hi

/-- C5 (as amended): on a graph with at least one node, when `chainLength`
is within the capacity that `make` accepts, `Generate` returns a chain of at
least one token, of at most `chainLength` tokens when `chainLength ≥ 1` and of
exactly one token when `chainLength = 0`; when `chainLength` is more than that
capacity `Generate` panics in `make`. -/
theorem Generate_length (m : Markov) (rt : Runtime) (n : Nat) (h : 0 < m.words.length) :
    (n ≤ rt.maxCap → ∃ chain, m.Generate rt n = .ok chain ∧ 1 ≤ chain.length ∧
        (1 ≤ n → chain.length ≤ n) ∧ (n = 0 → chain.length = 1)) ∧
      (rt.maxCap < n → m.Generate rt n = .error .makesliceCapOutOfRange) := by
  refine ⟨?_, Generate_cap m rt n h⟩
  intro hcap
  obtain ⟨ids, r', h1, _, _, h4, _⟩ := GenerateWalk_spec m rt n h hcap
  refine ⟨_, Generate_of_walk m rt n _ _ _ h1, by simp, ?_, ?_⟩
  · intro hn
    simp only [List.length_map, List.length_cons]
    omega
  · intro hn
    subst hn
    simp only [List.length_map, List.length_cons]
    omega

theorem Generate_length_witness :
    0 < demoGraph.words.length ∧
      (((3 : Nat) ≤ Runtime.amd64.maxCap →
          ∃ chain, demoGraph.Generate .amd64 3 = .ok chain ∧ 1 ≤ chain.length ∧
            ((1 : Nat) ≤ 3 → chain.length ≤ 3) ∧ ((3 : Nat) = 0 → chain.length = 1)) ∧
        (Runtime.amd64.maxCap < 3 →
          demoGraph.Generate .amd64 3 = .error .makesliceCapOutOfRange)) ∧
      (3 : Nat) ≤ Runtime.amd64.maxCap ∧
      demoGraph.Generate .amd64 3 = .ok [['a'], ['b'], ['a']] ∧
      demoGraph.Generate .amd64 0 = .ok [['a']] :=
  ⟨by decide, Generate_length demoGraph .amd64 3 (by decide), by decide, by decide, by decide⟩

/-- C5 (as stated) fails at `chainLength = 2^62` on the graph of `a b a c`:
`make([]string, 0, chainLength)` panics, on every runtime, so `Generate`
returns no chain. -/
theorem Generate_length_counterexample :
    0 < demoGraph.words.length ∧
      (∀ rt : Runtime, demoGraph.Generate rt (2 ^ 62) = .error .makesliceCapOutOfRange) ∧
      ¬ ∃ chain, demoGraph.Generate .amd64 (2 ^ 62) = .ok chain ∧ 1 ≤ chain.length ∧
        chain.length ≤ 2 ^ 62 := by
  have hall : ∀ rt : Runtime,
      demoGraph.Generate rt (2 ^ 62) = .error .makesliceCapOutOfRange := by
    intro rt
    exact Generate_cap demoGraph rt _ (by decide)
      (Nat.lt_trans rt.bound (by decide))
  refine ⟨by decide, hall, ?_⟩
  rintro ⟨chain, hc, _⟩
  rw [hall] at hc
  cases hc

/-- C6: on a non-empty graph whose IDs are `[0, N)` and which has no dangling
edge, the chain returned by `Generate` is the text sequence of a path: the IDs
`ids` are all below `N`, each one is a successor of the one before it, the
chain is the list of their texts, and from a node whose successors list is
`[s]` the path goes on to `s`.  `Generate` returns such a chain whenever
`chainLength` is within the capacity that `make` accepts, and every chain it
returns is one. -/
theorem Generate_path (m : Markov) (rt : Runtime) (n : Nat) (h : 0 < m.words.length)
    (hc : Contiguous m.words) (hd : NoDangling m.words) :
    (n ≤ rt.maxCap → ∃ ids : List ID, ids ≠ [] ∧
        m.Generate rt n = .ok (ids.map (fun i => (m.words.get i).Word)) ∧
        (∀ i ∈ ids, i < m.words.length) ∧
        List.Chain' (fun i j => j ∈ (m.words.get i).Next) ids ∧
        ∀ i j, (i, j) ∈ ids.zip ids.tail → ∀ s, (m.words.get i).Next = [s] → j = s) ∧
      ∀ chain, m.Generate rt n = .ok chain → ∃ ids : List ID, ids ≠ [] ∧
        chain = ids.map (fun i => (m.words.get i).Word) ∧
        (∀ i ∈ ids, i < m.words.length) ∧
        List.Chain' (fun i j => j ∈ (m.words.get i).Next) ids ∧
        ∀ i j, (i, j) ∈ ids.zip ids.tail → ∀ s, (m.words.get i).Next = [s] → j = s := by
  have key : n ≤ rt.maxCap → ∃ ids : List ID, ids ≠ [] ∧
      m.Generate rt n = .ok (ids.map (fun i => (m.words.get i).Word)) ∧
      (∀ i ∈ ids, i < m.words.length) ∧
      List.Chain' (fun i j => j ∈ (m.words.get i).Next) ids ∧
      ∀ i j, (i, j) ∈ ids.zip ids.tail → ∀ s, (m.words.get i).Next = [s] → j = s := by
    intro hcap
    obtain ⟨ids, r', h1, h2, h3, _, _⟩ := GenerateWalk_spec m rt n h hcap
    have hstart : m.rand.stream m.rand.pos % m.words.length ∈ m.words.keys :=
      hc.2 _ (Nat.mod_lt _ h)
    refine ⟨(m.rand.stream m.rand.pos % m.words.length) :: ids, List.cons_ne_nil _ _,
      Generate_of_walk m rt n _ _ _ h1, ?_, h2, h3⟩
    intro i hi
    rcases List.mem_cons.mp hi with rfl | hi
    · exact Nat.mod_lt _ h
    · exact hc.1 i (chain_keys m.words hd _ ids hstart h2 i hi)
  refine ⟨key, ?_⟩
  intro chain hchain
  obtain ⟨ids, h1, h2, h3⟩ := key (Generate_ok_cap m rt n chain hchain).2
  rw [hchain] at h2
  injection h2 with h2
  exact ⟨ids, h1, h2, h3⟩

theorem Generate_path_witness :
    0 < demoGraph.words.length ∧ Contiguous demoGraph.words ∧ NoDangling demoGraph.words ∧
      (((5 : Nat) ≤ Runtime.amd64.maxCap → ∃ ids : List ID, ids ≠ [] ∧
          demoGraph.Generate .amd64 5 = .ok (ids.map (fun i => (demoGraph.words.get i).Word)) ∧
          (∀ i ∈ ids, i < demoGraph.words.length) ∧
          List.Chain' (fun i j => j ∈ (demoGraph.words.get i).Next) ids ∧
          ∀ i j, (i, j) ∈ ids.zip ids.tail →
            ∀ s, (demoGraph.words.get i).Next = [s] → j = s) ∧
        ∀ chain, demoGraph.Generate .amd64 5 = .ok chain → ∃ ids : List ID, ids ≠ [] ∧
          chain = ids.map (fun i => (demoGraph.words.get i).Word) ∧
          (∀ i ∈ ids, i < demoGraph.words.length) ∧
          List.Chain' (fun i j => j ∈ (demoGraph.words.get i).Next) ids ∧
          ∀ i j, (i, j) ∈ ids.zip ids.tail →
            ∀ s, (demoGraph.words.get i).Next = [s] → j = s) ∧
      (5 : Nat) ≤ Runtime.amd64.maxCap ∧
      demoGraph.Generate .amd64 5 = .ok [['a'], ['b'], ['a'], ['c']] :=
  ⟨by decide, by decide, by decide,
    Generate_path demoGraph .amd64 5 (by decide) (by decide) (by decide), by decide,
    by decide⟩

/-- C7: on a non-empty graph and for `chainLength ≥ 1`, whenever `Generate`
returns a chain the variable `word` ends as the node visited last (its text is
the last token of the chain), and when the chain has fewer than `chainLength`
tokens that node has no successor; `Generate` returns whenever `chainLength`
is within the capacity that `make` accepts. -/
theorem Generate_stops_at_terminal (m : Markov) (rt : Runtime) (n : Nat)
    (h : 0 < m.words.length) (hn : 1 ≤ n) :
    (n ≤ rt.maxCap → ∃ (chain : List GoString) (word : Word) (r : Rand),
        m.GenerateWalk rt n = .ok (chain, word, r) ∧ m.Generate rt n = .ok chain ∧
        (∃ id, word = m.words.get id) ∧ chain.getLast? = some word.Word ∧
        (chain.length < n → word.Next = [])) ∧
      (∀ chain, m.Generate rt n = .ok chain →
        ∃ (word : Word) (r : Rand), m.GenerateWalk rt n = .ok (chain, word, r)) ∧
      ∀ (chain : List GoString) (word : Word) (r : Rand),
        m.GenerateWalk rt n = .ok (chain, word, r) →
        m.Generate rt n = .ok chain ∧ (∃ id, word = m.words.get id) ∧
        chain.getLast? = some word.Word ∧ (chain.length < n → word.Next = []) := by
  have key : n ≤ rt.maxCap → ∃ (chain : List GoString) (word : Word) (r : Rand),
      m.GenerateWalk rt n = .ok (chain, word, r) ∧ m.Generate rt n = .ok chain ∧
      (∃ id, word = m.words.get id) ∧ chain.getLast? = some word.Word ∧
      (chain.length < n → word.Next = []) := by
    intro hcap
    obtain ⟨ids, r', h1, _, _, _, h5⟩ := GenerateWalk_spec m rt n h hcap
    refine ⟨_, _, r', h1, Generate_of_walk m rt n _ _ _ h1, ⟨_, rfl⟩, ?_, ?_⟩
    · rw [List.getLast?_eq_getLast _ (by simp), List.getLast_map]
    · intro hlt
      apply h5
      simp only [List.length_map, List.length_cons] at hlt
      omega
  refine ⟨key, walk_of_Generate m rt n, ?_⟩
  intro chain word r hw
  have hg := Generate_of_walk m rt n chain word r hw
  obtain ⟨chain', word', r'', h1, _, h3, h4, h5⟩ := key (Generate_ok_cap m rt n chain hg).2
  rw [hw] at h1
  injection h1 with h1
  obtain ⟨hc, hrest⟩ := Prod.mk.inj h1
  obtain ⟨hword, _⟩ := Prod.mk.inj hrest
  subst hc
  subst hword
  exact ⟨hg, h3, h4, h5⟩

theorem Generate_stops_at_terminal_witness :
    0 < demoGraph.words.length ∧ (1 : Nat) ≤ 5 ∧
      (((5 : Nat) ≤ Runtime.amd64.maxCap → ∃ (chain : List GoString) (word : Word) (r : Rand),
          demoGraph.GenerateWalk .amd64 5 = .ok (chain, word, r) ∧
          demoGraph.Generate .amd64 5 = .ok chain ∧
          (∃ id, word = demoGraph.words.get id) ∧ chain.getLast? = some word.Word ∧
          (chain.length < 5 → word.Next = [])) ∧
        (∀ chain, demoGraph.Generate .amd64 5 = .ok chain →
          ∃ (word : Word) (r : Rand), demoGraph.GenerateWalk .amd64 5 = .ok (chain, word, r)) ∧
        ∀ (chain : List GoString) (word : Word) (r : Rand),
          demoGraph.GenerateWalk .amd64 5 = .ok (chain, word, r) →
          demoGraph.Generate .amd64 5 = .ok chain ∧ (∃ id, word = demoGraph.words.get id) ∧
          chain.getLast? = some word.Word ∧ (chain.length < 5 → word.Next = [])) ∧
      (5 : Nat) ≤ Runtime.amd64.maxCap ∧
      demoGraph.Generate .amd64 5 = .ok [['a'], ['b'], ['a'], ['c']] :=
  ⟨by decide, by decide,
    Generate_stops_at_terminal demoGraph .amd64 5 (by decide) (by decide), by decide,
    by decide⟩

/-- C8 (as amended): `Generate` has no error result and fails by panicking.
On the graph with zero nodes it panics for every `chainLength`, in
`rand.Int63n(0)`; on a graph with at least one node it returns a chain exactly
when `chainLength` is within the capacity that `make` accepts, and panics in
`make` otherwise. -/
theorem Generate_failures (m : Markov) (rt : Runtime) (n : Nat) :
    (m.Generate rt n = .error .invalidArgumentToInt63n ↔ m.words.length = 0) ∧
      (m.Generate rt n = .error .makesliceCapOutOfRange ↔
        0 < m.words.length ∧ rt.maxCap < n) ∧
      ((∃ chain, m.Generate rt n = .ok chain) ↔ 0 < m.words.length ∧ n ≤ rt.maxCap) := by
  rcases Nat.eq_zero_or_pos m.words.length with h0 | hpos
  · have he := Generate_empty m rt n h0
    refine ⟨⟨fun _ => h0, fun _ => he⟩, ⟨?_, ?_⟩, ⟨?_, ?_⟩⟩
    · intro h
      rw [he] at h
      cases h
    · rintro ⟨hp, _⟩
      exact absurd h0 (Nat.ne_of_gt hp)
    · rintro ⟨chain, hc⟩
      rw [he] at hc
      cases hc
    · rintro ⟨hp, _⟩
      exact absurd h0 (Nat.ne_of_gt hp)
  · rcases Nat.lt_or_ge rt.maxCap n with hcap | hcap
    · have he := Generate_cap m rt n hpos hcap
      refine ⟨⟨?_, fun h0 => absurd h0 (Nat.ne_of_gt hpos)⟩, ⟨fun _ => ⟨hpos, hcap⟩, fun _ => he⟩,
        ⟨?_, ?_⟩⟩
      · intro h
        rw [he] at h
        cases h
      · rintro ⟨chain, hc⟩
        rw [he] at hc
        cases hc
      · rintro ⟨_, hle⟩
        exact absurd hcap (Nat.not_lt.mpr hle)
    · obtain ⟨ids, r', h1, _⟩ := GenerateWalk_spec m rt n hpos hcap
      have hc := Generate_of_walk m rt n _ _ _ h1
      refine ⟨⟨?_, fun h0 => absurd h0 (Nat.ne_of_gt hpos)⟩, ⟨?_, ?_⟩,
        ⟨fun _ => ⟨hpos, hcap⟩, fun _ => ⟨_, hc⟩⟩⟩
      · intro he
        rw [hc] at he
        cases he
      · intro he
        rw [hc] at he
        cases he
      · rintro ⟨_, hlt⟩
        exact absurd hlt (Nat.not_lt.mpr hcap)

/-- C8 (as stated) fails on the graph of the text `a b`: it has two nodes and
`Generate(2^62)` fails, in `make`; and on the empty graph the failure is the
panic of `rand.Int63n(0)`. -/
theorem Generate_failures_counterexample :
    ((Markov.Init (fun _ => ⟨fun k => k, 0⟩) 1).Feed .ascii (fun _ => .storage)
        ['a', ' ', 'b']).words.length = 2 ∧
      ((Markov.Init (fun _ => ⟨fun k => k, 0⟩) 1).Feed .ascii (fun _ => .storage)
        ['a', ' ', 'b']).Generate .amd64 (2 ^ 62) = .error .makesliceCapOutOfRange ∧
      (Markov.Init (fun _ => ⟨fun k => k, 0⟩) 1).Generate .amd64 5 =
        .error .invalidArgumentToInt63n ∧
      ¬ ((∃ e, ((Markov.Init (fun _ => ⟨fun k => k, 0⟩) 1).Feed .ascii (fun _ => .storage)
          ['a', ' ', 'b']).Generate .amd64 (2 ^ 62) = .error e) ↔
        ((Markov.Init (fun _ => ⟨fun k => k, 0⟩) 1).Feed .ascii (fun _ => .storage)
          ['a', ' ', 'b']).words.length = 0) := by
  have h2 : ((Markov.Init (fun _ => ⟨fun k => k, 0⟩) 1).Feed .ascii (fun _ => .storage)
      ['a', ' ', 'b']).words.length = 2 := by decide
  have he : ((Markov.Init (fun _ => ⟨fun k => k, 0⟩) 1).Feed .ascii (fun _ => .storage)
      ['a', ' ', 'b']).Generate .amd64 (2 ^ 62) = .error .makesliceCapOutOfRange :=
    Generate_cap _ _ _ (by rw [h2]; decide) (by decide)
  refine ⟨h2, he, by decide, ?_⟩
  intro hiff
  have := hiff.mp ⟨_, he⟩
  rw [h2] at this
  cases this

/-! ## The graph under construction -/

theorem get_set (m : WordMap) (id : ID) (w : Word) (i : ID) :
    (m.set id w).get i = if i = id then w else m.get i := by
  induction m with
  | nil =>
    by_cases h : i = id
    · simp [WordMap.set, WordMap.get, List.lookup, h]
    · have hb : (i == id) = false := by simpa using h
      simp [WordMap.set, WordMap.get, List.lookup, h, hb]
  | cons e t ih =>
    obtain ⟨k, v⟩ := e
    by_cases hk : k = id
    · subst hk
      by_cases h : i = k
      · simp [WordMap.set, WordMap.get, List.lookup, h]
      · have hb : (i == k) = false := by simpa using h
        simp [WordMap.set, WordMap.get, List.lookup, h, hb]
    · by_cases h : i = k
      · subst h
        simp [WordMap.set, WordMap.get, List.lookup, hk]
      · have hb : (i == k) = false := by simpa using h
        have ih' := ih
        simp only [WordMap.get] at ih'
        simp only [WordMap.set, if_neg hk, WordMap.get, List.lookup, hb]
        exact ih'

theorem set_of_not_mem (m : WordMap) (id : ID) (w : Word) (h : id ∉ m.keys) :
    m.set id w = m ++ [(id, w)] := by
  induction m with
  | nil => rfl
  | cons e t ih =>
    obtain ⟨k, v⟩ := e
    simp only [WordMap.keys, List.map_cons, List.mem_cons, not_or] at h
    have hk : ¬ k = id := fun h' => h.1 h'.symm
    simp only [WordMap.set, if_neg hk, List.cons_append]
    rw [ih h.2]

theorem keys_set_of_mem (m : WordMap) (id : ID) (w : Word) (h : id ∈ m.keys) :
    (m.set id w).keys = m.keys := by
  induction m with
  | nil => simp [WordMap.keys] at h
  | cons e t ih =>
    obtain ⟨k, v⟩ := e
    by_cases hk : k = id
    · simp [WordMap.set, hk, WordMap.keys]
    · simp only [WordMap.keys, List.map_cons, List.mem_cons] at h
      have ht : id ∈ WordMap.keys t := by
        rcases h with h | h
        · exact absurd h.symm hk
        · exact h
      have := ih ht
      simp only [WordMap.keys] at this
      simp [WordMap.set, hk, WordMap.keys, this]

theorem length_keys (m : WordMap) : m.keys.length = m.length := by
  simp [WordMap.keys]

theorem mem_keys_iff (m : WordMap) (hk : m.keys = List.range m.length) (i : ID) :
    i ∈ m.keys ↔ i < m.length := by
  rw [hk, List.mem_range]

theorem keys_set_lt (m : WordMap) (hk : m.keys = List.range m.length) (id : ID) (w : Word)
    (h : id < m.length) :
    (m.set id w).length = m.length ∧ (m.set id w).keys = List.range (m.set id w).length := by
  have h1 := keys_set_of_mem m id w ((mem_keys_iff m hk id).mpr h)
  have h2 : (m.set id w).length = m.length := by
    rw [← length_keys, h1, length_keys]
  exact ⟨h2, by rw [h1, h2, hk]⟩

theorem keys_set_new (m : WordMap) (hk : m.keys = List.range m.length) (w : Word) :
    (m.set m.length w).length = m.length + 1 ∧
      (m.set m.length w).keys = List.range (m.set m.length w).length := by
  have hn : m.length ∉ m.keys := by
    rw [mem_keys_iff m hk]; exact Nat.lt_irrefl _
  rw [set_of_not_mem m _ w hn]
  refine ⟨by simp, ?_⟩
  simp only [WordMap.keys, List.map_append, List.map_cons, List.map_nil, List.length_append,
    List.length_singleton, List.range_succ]
  have := hk
  simp only [WordMap.keys] at this
  rw [this]

theorem get_eq_of_mem (m : WordMap) (hn : m.keys.Nodup) (i : ID) (w : Word)
    (h : (i, w) ∈ m) : m.get i = w := by
  induction m with
  | nil => simp at h
  | cons e t ih =>
    obtain ⟨k, v⟩ := e
    simp only [WordMap.keys, List.map_cons, List.nodup_cons] at hn
    rcases List.mem_cons.mp h with h1 | h2
    · obtain ⟨rfl, rfl⟩ := Prod.mk.inj h1
      simp [WordMap.get, List.lookup]
    · have hik : i ≠ k := by
        intro hik
        subst hik
        exact hn.1 (List.mem_map_of_mem Prod.fst h2)
      have hb : (i == k) = false := by simpa using hik
      have := ih hn.2 h2
      simp only [WordMap.get] at this
      simp only [WordMap.get, List.lookup, hb]
      exact this

theorem mem_iff_get (m : WordMap) (hk : m.keys = List.range m.length) (i : ID) (w : Word) :
    (i, w) ∈ m ↔ i < m.length ∧ m.get i = w := by
  have hn : m.keys.Nodup := by rw [hk]; exact List.nodup_range _
  constructor
  · intro h
    refine ⟨(mem_keys_iff m hk i).mp (List.mem_map_of_mem Prod.fst h), get_eq_of_mem m hn i w h⟩
  · rintro ⟨hi, rfl⟩
    exact get_mem_of_key m i ((mem_keys_iff m hk i).mpr hi)

theorem findWordID_some (o : RangeOrder) (m : Markov) (word : GoString) (id : Nat)
    (hk : m.words.keys = List.range m.words.length) (h : m.findWordID o word = some id) :
    id < m.words.length ∧ (m.words.get id).Word = word := by
  unfold Markov.findWordID at h
  split at h
  · rename_i e he
    have hmem : e ∈ m.words := (o.perm m.words).mem_iff.mp (List.mem_of_find?_eq_some he)
    have hp := List.find?_some he
    simp only [decide_eq_true_eq] at hp
    have hid : e.1 = id := by simpa using h
    obtain ⟨k, v⟩ := e
    simp only at hid hp
    subst hid
    obtain ⟨h1, h2⟩ := (mem_iff_get m.words hk k v).mp hmem
    exact ⟨h1, by rw [h2, hp]⟩
  · simp at h

theorem findWordID_none (o : RangeOrder) (m : Markov) (word : GoString)
    (hk : m.words.keys = List.range m.words.length) (h : m.findWordID o word = none) :
    ∀ i, i < m.words.length → (m.words.get i).Word ≠ word := by
  unfold Markov.findWordID at h
  split at h
  · simp at h
  · rename_i he
    intro i hi heq
    have hmem : (i, m.words.get i) ∈ o.visit m.words :=
      (o.perm m.words).mem_iff.mpr ((mem_iff_get m.words hk i _).mpr ⟨hi, rfl⟩)
    have := List.find?_eq_none.mp he _ hmem
    simp only [decide_eq_true_eq] at this
    exact this heq.symm


theorem addNext_found (o₁ o₂ : RangeOrder) (m : Markov) (word next : GoString) (nid : ID)
    (h : m.findWordID o₁ next = some nid) :
    m.addNext o₁ o₂ word next = Markov.linkNext o₂ m nid word := by
  unfold Markov.addNext Markov.linkNext
  simp only [h]

theorem addNext_fresh (o₁ o₂ : RangeOrder) (m : Markov) (word next : GoString)
    (h : m.findWordID o₁ next = none) :
    m.addNext o₁ o₂ word next =
      Markov.linkNext o₂ { m with words := m.words.set m.words.length ⟨next, []⟩ }
        m.words.length word := by
  unfold Markov.addNext Markov.linkNext
  simp only [h]

theorem edge_iff (m : WordMap) (hk : m.keys = List.range m.length) (a b : GoString) :
    Edge m a b ↔ ∃ i j, i < m.length ∧ j < m.length ∧ (m.get i).Word = a ∧
      (m.get j).Word = b ∧ j ∈ (m.get i).Next := by
  constructor
  · rintro ⟨i, wi, j, wj, hi, hj, ha, hb, hmem⟩
    obtain ⟨hi1, hi2⟩ := (mem_iff_get m hk i wi).mp hi
    obtain ⟨hj1, hj2⟩ := (mem_iff_get m hk j wj).mp hj
    exact ⟨i, j, hi1, hj1, by rw [hi2, ha], by rw [hj2, hb], by rw [hi2]; exact hmem⟩
  · rintro ⟨i, j, hi, hj, ha, hb, hmem⟩
    exact ⟨i, m.get i, j, m.get j, (mem_iff_get m hk i _).mpr ⟨hi, rfl⟩,
      (mem_iff_get m hk j _).mpr ⟨hj, rfl⟩, ha, hb, hmem⟩

/-- Adding a node under the fresh ID `N`. -/
theorem push_spec (m : WordMap) (hI : Inv m) (w : Word)
    (hfresh : ∀ i, i < m.length → (m.get i).Word ≠ w.Word)
    (hcl : ∀ j : Nat, j ∈ w.Next → j < m.length) (hnd : w.Next.Nodup) :
    Inv (m.set m.length w) ∧ (m.set m.length w).length = m.length + 1 ∧
      (∀ i, (m.set m.length w).get i = if i = m.length then w else m.get i) ∧
      ∀ a b, Edge (m.set m.length w) a b ↔
        Edge m a b ∨ (a = w.Word ∧ ∃ j : Nat, j ∈ w.Next ∧ (m.get j).Word = b) := by
  obtain ⟨hlen, hkeys⟩ := keys_set_new m hI.keys w
  have hget := get_set m m.length w
  have hI' : Inv (m.set m.length w) := by
    refine ⟨hkeys, ?_, ?_, ?_⟩
    · intro i j hi hj
      rw [hlen] at hi hj
      rw [hget i, hget j]
      by_cases h1 : i = m.length <;> by_cases h2 : j = m.length
      · intro _; rw [h1, h2]
      · rw [if_pos h1, if_neg h2]
        intro h
        exact absurd h.symm (hfresh j (by omega))
      · rw [if_neg h1, if_pos h2]
        intro h
        exact absurd h (hfresh i (by omega))
      · rw [if_neg h1, if_neg h2]
        exact hI.inj i j (by omega) (by omega)
    · intro i hi j hj
      rw [hlen] at hi ⊢
      rw [hget i] at hj
      by_cases h1 : i = m.length
      · rw [if_pos h1] at hj
        exact Nat.lt_succ_of_lt (hcl j hj)
      · rw [if_neg h1] at hj
        exact Nat.lt_succ_of_lt (hI.closed i (by omega) j hj)
    · intro i hi
      rw [hlen] at hi
      rw [hget i]
      by_cases h1 : i = m.length
      · rw [if_pos h1]; exact hnd
      · rw [if_neg h1]; exact hI.nodup i (by omega)
  refine ⟨hI', hlen, hget, ?_⟩
  intro a b
  rw [edge_iff _ hkeys, edge_iff _ hI.keys, hlen]
  constructor
  · rintro ⟨i, j, hi, hj, ha, hb, hmem⟩
    rw [hget i] at ha hmem
    rw [hget j] at hb
    by_cases h1 : i = m.length
    · rw [if_pos h1] at ha hmem
      have hjlt : j < m.length := hcl j hmem
      rw [if_neg (Nat.ne_of_lt hjlt)] at hb
      exact Or.inr ⟨ha.symm, j, hmem, hb⟩
    · rw [if_neg h1] at ha hmem
      have hilt : i < m.length := by omega
      have hjlt : j < m.length := hI.closed i hilt j hmem
      rw [if_neg (Nat.ne_of_lt hjlt)] at hb
      exact Or.inl ⟨i, j, hilt, hjlt, ha, hb, hmem⟩
  · rintro (⟨i, j, hi, hj, ha, hb, hmem⟩ | ⟨ha, j, hmem, hb⟩)
    · refine ⟨i, j, by omega, by omega, ?_, ?_, ?_⟩
      · rw [hget i, if_neg (Nat.ne_of_lt hi)]; exact ha
      · rw [hget j, if_neg (Nat.ne_of_lt hj)]; exact hb
      · rw [hget i, if_neg (Nat.ne_of_lt hi)]; exact hmem
    · have hjlt : j < m.length := hcl j hmem
      refine ⟨m.length, j, by omega, by omega, ?_, ?_, ?_⟩
      · rw [hget, if_pos rfl]; exact ha.symm
      · rw [hget j, if_neg (Nat.ne_of_lt hjlt)]; exact hb
      · rw [hget, if_pos rfl]; exact hmem

/-- Appending the ID `nid` to the successors of the node `wid`. -/
theorem link_spec (m : WordMap) (hI : Inv m) (wid nid : Nat) (hw : wid < m.length)
    (hn : nid < m.length) (hnew : nid ∉ (m.get wid).Next) :
    Inv (m.set wid ⟨(m.get wid).Word, (m.get wid).Next ++ [nid]⟩) ∧
      (m.set wid ⟨(m.get wid).Word, (m.get wid).Next ++ [nid]⟩).length = m.length ∧
      (∀ i, ((m.set wid ⟨(m.get wid).Word, (m.get wid).Next ++ [nid]⟩).get i).Word =
        (m.get i).Word) ∧
      ∀ a b, Edge (m.set wid ⟨(m.get wid).Word, (m.get wid).Next ++ [nid]⟩) a b ↔
        Edge m a b ∨ (a = (m.get wid).Word ∧ b = (m.get nid).Word) := by
  obtain ⟨hlen, hkeys⟩ :=
    keys_set_lt m hI.keys wid ⟨(m.get wid).Word, (m.get wid).Next ++ [nid]⟩ hw
  have hget := get_set m wid ⟨(m.get wid).Word, (m.get wid).Next ++ [nid]⟩
  have htext : ∀ i, ((m.set wid ⟨(m.get wid).Word, (m.get wid).Next ++ [nid]⟩).get i).Word =
      (m.get i).Word := by
    intro i
    rw [hget i]
    by_cases h1 : i = wid
    · rw [if_pos h1, h1]
    · rw [if_neg h1]
  have hnext : ∀ i j,
      j ∈ ((m.set wid ⟨(m.get wid).Word, (m.get wid).Next ++ [nid]⟩).get i).Next ↔
        j ∈ (m.get i).Next ∨ (i = wid ∧ j = nid) := by
    intro i j
    rw [hget i]
    by_cases h1 : i = wid
    · rw [if_pos h1, h1]
      simp
    · rw [if_neg h1]
      simp [h1]
  have hI' : Inv (m.set wid ⟨(m.get wid).Word, (m.get wid).Next ++ [nid]⟩) := by
    refine ⟨hkeys, ?_, ?_, ?_⟩
    · intro i j hi hj
      rw [hlen] at hi hj
      rw [htext i, htext j]
      exact hI.inj i j hi hj
    · intro i hi j hj
      rw [hlen] at hi ⊢
      rcases (hnext i j).mp hj with h | ⟨_, h⟩
      · exact hI.closed i hi j h
      · rw [h]; exact hn
    · intro i hi
      rw [hlen] at hi
      rw [hget i]
      by_cases h1 : i = wid
      · rw [if_pos h1]
        simp only
        rw [List.nodup_append]
        refine ⟨hI.nodup wid hw, List.nodup_singleton _, ?_⟩
        intro x hx hx'
        rw [List.mem_singleton] at hx'
        rw [hx'] at hx
        exact hnew hx
      · rw [if_neg h1]; exact hI.nodup i hi
  refine ⟨hI', hlen, htext, ?_⟩
  intro a b
  rw [edge_iff _ hkeys, edge_iff _ hI.keys, hlen]
  constructor
  · rintro ⟨i, j, hi, hj, ha, hb, hmem⟩
    rw [htext i] at ha
    rw [htext j] at hb
    rcases (hnext i j).mp hmem with h | ⟨h1, h2⟩
    · exact Or.inl ⟨i, j, hi, hj, ha, hb, h⟩
    · rw [h1] at ha
      rw [h2] at hb
      exact Or.inr ⟨ha.symm, hb.symm⟩
  · rintro (⟨i, j, hi, hj, ha, hb, hmem⟩ | ⟨ha, hb⟩)
    · exact ⟨i, j, hi, hj, by rw [htext i]; exact ha, by rw [htext j]; exact hb,
        (hnext i j).mpr (Or.inl hmem)⟩
    · exact ⟨wid, nid, hw, hn, by rw [htext wid]; exact ha.symm, by rw [htext nid]; exact hb.symm,
        (hnext wid nid).mpr (Or.inr ⟨rfl, rfl⟩)⟩


theorem linkNext_spec (o₂ : RangeOrder) (m₁ : Markov) (nid : Nat) (word next : GoString)
    (hI : Inv m₁.words) (hn : nid < m₁.words.length) (ht : (m₁.words.get nid).Word = next) :
    StepSpec m₁.words (Markov.linkNext o₂ m₁ nid word).words word next := by
  unfold Markov.linkNext
  cases h : m₁.findWordID o₂ word with
  | none =>
    have hfresh := findWordID_none o₂ m₁ word hI.keys h
    obtain ⟨hI', hlen, hget, hedge⟩ := push_spec m₁.words hI ⟨word, [nid]⟩ hfresh
      (by intro j hj; rw [List.mem_singleton] at hj; rw [hj]; exact hn) (List.nodup_singleton _)
    show StepSpec m₁.words (m₁.words.set m₁.words.length ⟨word, [nid]⟩) word next
    refine ⟨hI', by omega, ?_, ?_, ?_, ?_⟩
    · intro i hi
      rw [hget i, if_neg (Nat.ne_of_lt hi)]
    · intro a b
      rw [hedge a b]
      simp only [List.mem_singleton, exists_eq_left]
      rw [ht]
      constructor
      · rintro (h1 | ⟨h1, h2⟩)
        · exact Or.inl h1
        · exact Or.inr ⟨h1, h2.symm⟩
      · rintro (h1 | ⟨h1, h2⟩)
        · exact Or.inl h1
        · exact Or.inr ⟨h1, h2.symm⟩
    · exact ⟨m₁.words.length, by omega, by rw [hget, if_pos rfl]⟩
    · exact ⟨nid, by omega, by rw [hget nid, if_neg (Nat.ne_of_lt hn)]; exact ht⟩
  | some wid =>
    obtain ⟨hw, hwt⟩ := findWordID_some o₂ m₁ word wid hI.keys h
    simp only
    by_cases hmem : nid ∈ (m₁.words.get wid).Next
    · rw [if_pos hmem]
      refine ⟨hI, Nat.le_refl _, fun _ _ => rfl, ?_, ⟨wid, hw, hwt⟩, ⟨nid, hn, ht⟩⟩
      intro a b
      constructor
      · exact Or.inl
      · rintro (h1 | ⟨rfl, rfl⟩)
        · exact h1
        · exact (edge_iff _ hI.keys _ _).mpr ⟨wid, nid, hw, hn, hwt, ht, hmem⟩
    · rw [if_neg hmem]
      obtain ⟨hI', hlen, htext, hedge⟩ := link_spec m₁.words hI wid nid hw hn hmem
      show StepSpec m₁.words (m₁.words.set wid
        ⟨(m₁.words.get wid).Word, (m₁.words.get wid).Next ++ [nid]⟩) word next
      refine ⟨hI', by omega, fun i _ => htext i, ?_, ⟨wid, by omega, by rw [htext, hwt]⟩,
        ⟨nid, by omega, by rw [htext, ht]⟩⟩
      intro a b
      rw [hedge a b, hwt, ht]

theorem edge_push_leaf (m : WordMap) (hI : Inv m) (next : GoString)
    (hfresh : ∀ i, i < m.length → (m.get i).Word ≠ next) (a b : GoString) :
    Edge (m.set m.length ⟨next, []⟩) a b ↔ Edge m a b := by
  obtain ⟨_, _, _, hedge⟩ := push_spec m hI ⟨next, []⟩ hfresh (by simp) List.nodup_nil
  rw [hedge a b]
  simp

theorem addNext_spec (o₁ o₂ : RangeOrder) (m : Markov) (word next : GoString)
    (hI : Inv m.words) : StepSpec m.words (m.addNext o₁ o₂ word next).words word next := by
  cases h : m.findWordID o₁ next with
  | some nid =>
    obtain ⟨hn, ht⟩ := findWordID_some o₁ m next nid hI.keys h
    rw [addNext_found o₁ o₂ m word next nid h]
    exact linkNext_spec o₂ m nid word next hI hn ht
  | none =>
    have hfresh := findWordID_none o₁ m next hI.keys h
    rw [addNext_fresh o₁ o₂ m word next h]
    obtain ⟨hI₁, hlen, hget, _⟩ :=
      push_spec m.words hI ⟨next, []⟩ hfresh (by simp) List.nodup_nil
    have hs : StepSpec (m.words.set m.words.length ⟨next, []⟩)
        (Markov.linkNext o₂ { m with words := m.words.set m.words.length ⟨next, []⟩ }
          m.words.length word).words word next :=
      linkNext_spec o₂ { m with words := m.words.set m.words.length ⟨next, []⟩ }
        m.words.length word next hI₁ (by show _ < (m.words.set _ _).length; omega)
        (by show ((m.words.set _ _).get _).Word = next; rw [hget, if_pos rfl])
    refine ⟨hs.inv, ?_, ?_, ?_, hs.nodeWord, hs.nodeNext⟩
    · have := hs.mono
      omega
    · intro i hi
      rw [hs.text i (by omega), hget i, if_neg (Nat.ne_of_lt hi)]
    · intro a b
      rw [hs.edge a b, edge_push_leaf m.words hI next hfresh a b]

theorem inv_nil : Inv ([] : WordMap) :=
  ⟨rfl, by intro i j hi; simp at hi, by intro i hi; simp at hi, by intro i hi; simp at hi⟩

theorem feedToken_inv (ords : Nat → RangeOrder) (m : Markov) (last tok : GoString)
    (hI : Inv m.words) : Inv (m.feedToken ords last tok).2.words := by
  unfold Markov.feedToken
  by_cases h : last ≠ []
  · rw [if_pos h]
    exact (addNext_spec _ _ m last tok hI).inv
  · rw [if_neg h]
    exact hI

theorem feedTokens_inv (toks : List GoString) :
    ∀ (ords : Nat → RangeOrder) (m : Markov) (last : GoString),
      Inv m.words → Inv (Markov.feedTokens ords m last toks).words := by
  induction toks with
  | nil => intro ords m last hI; exact hI
  | cons tok rest ih =>
    intro ords m last hI
    rw [Markov.feedTokens]
    exact ih _ _ _ (feedToken_inv ords m last tok hI)

theorem reachable_inv (u : Unicode) (m : Markov) (h : Reachable u m) : Inv m.words := by
  induction h with
  | init newRand seed => exact inv_nil
  | addNext o₁ o₂ m word next _ ih => exact (addNext_spec o₁ o₂ m word next ih).inv
  | feed ords m input _ ih =>
    rw [Feed_eq_feedTokens]
    exact feedTokens_inv _ ords m [] ih


theorem findWordID_order (o o' : RangeOrder) (m : Markov) (word : GoString)
    (hI : Inv m.words) : m.findWordID o word = m.findWordID o' word := by
  cases h : m.findWordID o word with
  | none =>
    cases h' : m.findWordID o' word with
    | none => rfl
    | some j =>
      obtain ⟨hj, ht⟩ := findWordID_some o' m word j hI.keys h'
      exact absurd ht (findWordID_none o m word hI.keys h j hj)
  | some i =>
    obtain ⟨hi, hti⟩ := findWordID_some o m word i hI.keys h
    cases h' : m.findWordID o' word with
    | none => exact absurd hti (findWordID_none o' m word hI.keys h' i hi)
    | some j =>
      obtain ⟨hj, htj⟩ := findWordID_some o' m word j hI.keys h'
      rw [hI.inj i j hi hj (by rw [hti, htj])]

theorem linkNext_order (o o' : RangeOrder) (m₁ : Markov) (nid : ID) (word : GoString)
    (hI : Inv m₁.words) : Markov.linkNext o m₁ nid word = Markov.linkNext o' m₁ nid word := by
  unfold Markov.linkNext
  rw [findWordID_order o o' m₁ word hI]

/-- On a graph that satisfies the invariant the result of `addNext` does not
depend on the orders in which the map is traversed. -/
theorem addNext_order (o₁ o₂ o₁' o₂' : RangeOrder) (m : Markov) (word next : GoString)
    (hI : Inv m.words) : m.addNext o₁ o₂ word next = m.addNext o₁' o₂' word next := by
  have hord := findWordID_order o₁ o₁' m next hI
  cases h : m.findWordID o₁ next with
  | some nid =>
    rw [addNext_found o₁ o₂ m word next nid h,
      addNext_found o₁' o₂' m word next nid (by rw [← hord, h])]
    exact linkNext_order o₂ o₂' m nid word hI
  | none =>
    rw [addNext_fresh o₁ o₂ m word next h, addNext_fresh o₁' o₂' m word next (by rw [← hord, h])]
    have hfresh := findWordID_none o₁ m next hI.keys h
    obtain ⟨hI₁, _⟩ := push_spec m.words hI ⟨next, []⟩ hfresh (by simp) List.nodup_nil
    exact linkNext_order o₂ o₂' _ _ word hI₁

theorem inv_no_dangling (m : WordMap) (hI : Inv m) : NoDangling m := by
  intro e he j hj
  obtain ⟨i, w⟩ := e
  obtain ⟨hi, hw⟩ := (mem_iff_get m hI.keys i w).mp he
  rw [mem_keys_iff m hI.keys]
  exact hI.closed i hi j (by rw [hw]; exact hj)

theorem inv_nodup (m : WordMap) (hI : Inv m) : ∀ e ∈ m, e.2.Next.Nodup := by
  intro e he
  obtain ⟨i, w⟩ := e
  obtain ⟨hi, hw⟩ := (mem_iff_get m hI.keys i w).mp he
  have := hI.nodup i hi
  rw [hw] at this
  exact this

theorem inv_texts_unique (m : WordMap) (hI : Inv m) (i : ID) (wi : Word) (j : ID) (wj : Word)
    (hi : (i, wi) ∈ m) (hj : (j, wj) ∈ m) (h : wi.Word = wj.Word) : i = j := by
  obtain ⟨hi1, hi2⟩ := (mem_iff_get m hI.keys i wi).mp hi
  obtain ⟨hj1, hj2⟩ := (mem_iff_get m hI.keys j wj).mp hj
  exact hI.inj i j hi1 hj1 (by rw [hi2, hj2, h])

theorem two_calls_cat_sat (newRand : Int → Rand) (seed : Int) (o₁ o₂ o₃ o₄ : RangeOrder) :
    (((Markov.Init newRand seed).addNext o₁ o₂ ['c', 'a', 't'] ['s', 'a', 't']).addNext o₃ o₄
      ['c', 'a', 't'] ['s', 'a', 't']).words =
      [(0, ⟨['s', 'a', 't'], []⟩), (1, ⟨['c', 'a', 't'], [0]⟩)] := by
  have h0 : Inv (Markov.Init newRand seed).words := inv_nil
  rw [addNext_order o₁ o₂ .storage .storage _ _ _ h0]
  have h1 := (addNext_spec .storage .storage (Markov.Init newRand seed)
    ['c', 'a', 't'] ['s', 'a', 't'] h0).inv
  rw [addNext_order o₃ o₄ .storage .storage _ _ _ h1]
  rfl

/-- C2: in every graph built from `Init` by `addNext` calls (and `Feed`
calls), repeated arguments included, no successors list holds the same ID
twice; after two calls `addNext("cat", "sat")` from `Init` the graph is the
node `sat` with no successor and the node `cat` with the one successor
`sat`. -/
theorem addNext_no_duplicate_successors (u : Unicode) (m : Markov) (h : Reachable u m) :
    (∀ e ∈ m.words, e.2.Next.Nodup) ∧
      ∀ (newRand : Int → Rand) (seed : Int) (o₁ o₂ o₃ o₄ : RangeOrder),
        (((Markov.Init newRand seed).addNext o₁ o₂ ['c', 'a', 't'] ['s', 'a', 't']).addNext
          o₃ o₄ ['c', 'a', 't'] ['s', 'a', 't']).words =
          [(0, ⟨['s', 'a', 't'], []⟩), (1, ⟨['c', 'a', 't'], [0]⟩)] :=
  ⟨inv_nodup m.words (reachable_inv u m h), two_calls_cat_sat⟩

theorem addNext_no_duplicate_successors_witness :
    Reachable .ascii
        (((Markov.Init (fun _ => ⟨fun k => k, 0⟩) 7).addNext .storage .reversed ['a'] ['b']).addNext
          .reversed .storage ['a'] ['b']) ∧
      ((∀ e ∈ (((Markov.Init (fun _ => ⟨fun k => k, 0⟩) 7).addNext .storage .reversed
            ['a'] ['b']).addNext .reversed .storage ['a'] ['b']).words, e.2.Next.Nodup) ∧
        ∀ (newRand : Int → Rand) (seed : Int) (o₁ o₂ o₃ o₄ : RangeOrder),
          (((Markov.Init newRand seed).addNext o₁ o₂ ['c', 'a', 't'] ['s', 'a', 't']).addNext
            o₃ o₄ ['c', 'a', 't'] ['s', 'a', 't']).words =
            [(0, ⟨['s', 'a', 't'], []⟩), (1, ⟨['c', 'a', 't'], [0]⟩)]) ∧
      (((Markov.Init (fun _ => ⟨fun k => k, 0⟩) 7).addNext .storage .reversed ['a'] ['b']).addNext
        .reversed .storage ['a'] ['b']).words = [(0, ⟨['b'], []⟩), (1, ⟨['a'], [0]⟩)] :=
  ⟨.addNext _ _ _ _ _ (.addNext _ _ _ _ _ (.init _ _)),
    addNext_no_duplicate_successors .ascii _ (.addNext _ _ _ _ _ (.addNext _ _ _ _ _ (.init _ _))),
    by decide⟩

/-- C9: in every graph built from `Init` by `Feed` and `addNext` calls, every
ID in a successors list is a key of the node map. -/
theorem reachable_no_dangling (u : Unicode) (m : Markov) (h : Reachable u m) :
    ∀ e ∈ m.words, ∀ j ∈ e.2.Next, j ∈ m.words.keys :=
  inv_no_dangling m.words (reachable_inv u m h)

theorem reachable_no_dangling_witness :
    Reachable .ascii
        ((Markov.Init (fun _ => ⟨fun k => k, 0⟩) 1).Feed .ascii (fun _ => .reversed)
          ['a', ' ', 'b', ' ', 'a', ' ', 'c']) ∧
      (∀ e ∈ ((Markov.Init (fun _ => ⟨fun k => k, 0⟩) 1).Feed .ascii (fun _ => .reversed)
          ['a', ' ', 'b', ' ', 'a', ' ', 'c']).words,
        ∀ j ∈ e.2.Next,
          j ∈ ((Markov.Init (fun _ => ⟨fun k => k, 0⟩) 1).Feed .ascii (fun _ => .reversed)
            ['a', ' ', 'b', ' ', 'a', ' ', 'c']).words.keys) ∧
      ((Markov.Init (fun _ => ⟨fun k => k, 0⟩) 1).Feed .ascii (fun _ => .reversed)
          ['a', ' ', 'b', ' ', 'a', ' ', 'c']).words =
        [(0, ⟨['b'], [1]⟩), (1, ⟨['a'], [0, 2]⟩), (2, ⟨['c'], []⟩)] :=
  ⟨.feed _ _ _ (.init _ _), reachable_no_dangling .ascii _ (.feed _ _ _ (.init _ _)), by decide⟩

/-- C10: in every graph built from `Init` by `Feed` and `addNext` calls no two
distinct IDs carry the same text; in particular after a call `addNext(w, w)`
exactly one ID carries the text `w`. -/
theorem reachable_texts_unique (u : Unicode) (m : Markov) (h : Reachable u m) :
    (∀ i wi j wj, (i, wi) ∈ m.words → (j, wj) ∈ m.words → wi.Word = wj.Word → i = j) ∧
      ∀ (o₁ o₂ : RangeOrder) (w : GoString),
        ∃! i, ∃ wi, (i, wi) ∈ (m.addNext o₁ o₂ w w).words ∧ wi.Word = w := by
  refine ⟨fun i wi j wj => inv_texts_unique m.words (reachable_inv u m h) i wi j wj, ?_⟩
  intro o₁ o₂ w
  have hs := addNext_spec o₁ o₂ m w w (reachable_inv u m h)
  obtain ⟨i, hi, ht⟩ := hs.nodeWord
  refine ⟨i, ⟨_, (mem_iff_get _ hs.inv.keys i _).mpr ⟨hi, rfl⟩, ht⟩, ?_⟩
  rintro j ⟨wj, hj, htj⟩
  exact inv_texts_unique _ hs.inv j wj i _ hj ((mem_iff_get _ hs.inv.keys i _).mpr ⟨hi, rfl⟩)
    (by rw [htj, ht])

theorem reachable_texts_unique_witness :
    Reachable .ascii ((Markov.Init (fun _ => ⟨fun k => k, 0⟩) 1).addNext .storage .storage
        ['x'] ['x']) ∧
      ((∀ i wi j wj,
          (i, wi) ∈ ((Markov.Init (fun _ => ⟨fun k => k, 0⟩) 1).addNext .storage .storage
            ['x'] ['x']).words →
          (j, wj) ∈ ((Markov.Init (fun _ => ⟨fun k => k, 0⟩) 1).addNext .storage .storage
            ['x'] ['x']).words → wi.Word = wj.Word → i = j) ∧
        ∀ (o₁ o₂ : RangeOrder) (w : GoString),
          ∃! i, ∃ wi, (i, wi) ∈ (((Markov.Init (fun _ => ⟨fun k => k, 0⟩) 1).addNext .storage
            .storage ['x'] ['x']).addNext o₁ o₂ w w).words ∧ wi.Word = w) ∧
      ((Markov.Init (fun _ => ⟨fun k => k, 0⟩) 1).addNext .storage .storage ['x'] ['x']).words =
        [(0, ⟨['x'], [0]⟩)] :=
  ⟨.addNext _ _ _ _ _ (.init _ _), reachable_texts_unique .ascii _ (.addNext _ _ _ _ _ (.init _ _)),
    by decide⟩

theorem pair_infix_cons_cons (a b x y : GoString) (l : List GoString) :
    [a, b] <:+: x :: y :: l ↔ (a = x ∧ b = y) ∨ [a, b] <:+: y :: l := by
  rw [List.infix_cons_iff, List.cons_prefix_cons, List.cons_prefix_cons]
  simp

theorem pair_infix_single (a b x : GoString) : ¬ [a, b] <:+: [x] := by
  intro h
  have := h.length_le
  simp at this

theorem pair_infix_nil (a b : GoString) : ¬ [a, b] <:+: ([] : List GoString) := by
  intro h
  have := h.length_le
  simp at this

theorem feedToken_edge (ords : Nat → RangeOrder) (m : Markov) (last tok : GoString)
    (hI : Inv m.words) (a b : GoString) :
    Edge (m.feedToken ords last tok).2.words a b ↔
      Edge m.words a b ∨ (last ≠ [] ∧ a = last ∧ b = tok) := by
  unfold Markov.feedToken
  by_cases h : last ≠ []
  · rw [if_pos h]
    rw [(addNext_spec _ _ m last tok hI).edge a b]
    simp [h]
  · rw [if_neg h]
    simp [h]

theorem feedTokens_edge (toks : List GoString) :
    ∀ (ords : Nat → RangeOrder) (m : Markov) (last : GoString), Inv m.words → [] ∉ toks →
      ∀ a b, Edge (Markov.feedTokens ords m last toks).words a b ↔
        Edge m.words a b ∨ (last ≠ [] ∧ [a, b] <:+: last :: toks) ∨
          (last = [] ∧ [a, b] <:+: toks) := by
  induction toks with
  | nil =>
    intro ords m last _ _ a b
    simp [Markov.feedTokens, pair_infix_single, pair_infix_nil]
  | cons tok rest ih =>
    intro ords m last hI hne a b
    have htok : tok ≠ [] := fun h => hne (by rw [h]; exact List.mem_cons_self _ _)
    have hrest : [] ∉ rest := fun h => hne (List.mem_cons_of_mem _ h)
    rw [Markov.feedTokens, ih _ _ tok (feedToken_inv ords m last tok hI) hrest a b,
      feedToken_edge ords m last tok hI a b, pair_infix_cons_cons]
    by_cases hl : last = []
    · simp [hl, htok]
    · simp only [hl, htok, ne_eq, not_false_eq_true, true_and, false_and, or_false]
      tauto

theorem Feed_edge (u : Unicode) (ords : Nat → RangeOrder) (m : Markov) (input : List Char)
    (hI : Inv m.words) (a b : GoString) :
    Edge (m.Feed u ords input).words a b ↔ Edge m.words a b ∨ [a, b] <:+: tokens u input := by
  rw [Feed_eq_feedTokens,
    feedTokens_edge _ ords m [] hI (tokenized_nonempty u input _
      (tokens_tokenized_aux u input.length input (Nat.le_refl _))) a b]
  simp

theorem Feed_inv (u : Unicode) (ords : Nat → RangeOrder) (m : Markov) (input : List Char)
    (hI : Inv m.words) : Inv (m.Feed u ords input).words := by
  rw [Feed_eq_feedTokens]
  exact feedTokens_inv _ ords m [] hI

theorem feedAll_edge (u : Unicode) (texts : List ((Nat → RangeOrder) × List Char)) :
    ∀ (m : Markov), Inv m.words → ∀ a b,
      Edge (texts.foldl (fun m t => m.Feed u t.1 t.2) m).words a b ↔
        Edge m.words a b ∨ ∃ t ∈ texts, [a, b] <:+: tokens u t.2 := by
  induction texts with
  | nil => intro m _ a b; simp
  | cons t rest ih =>
    intro m hI a b
    rw [List.foldl_cons, ih _ (Feed_inv u t.1 m t.2 hI) a b, Feed_edge u t.1 m t.2 hI a b]
    simp only [List.mem_cons, exists_eq_or_imp]
    tauto

theorem edge_nil (a b : GoString) : ¬ Edge ([] : WordMap) a b := by
  rintro ⟨i, wi, j, wj, hi, _⟩
  simp at hi

/-- C1: after `Init` and `Feed` of the texts `texts` in order, the node with
text `a` has the ID of the node with text `b` among its successors if and only
if `a` is immediately followed by `b` in the token sequence of one of the fed
texts; in particular, when two texts are fed one after the other, the last
token `a` of the first is not linked to the first token `b` of the second
unless some text has `a` immediately followed by `b`. -/
theorem Feed_edges (u : Unicode) (newRand : Int → Rand) (seed : Int)
    (texts : List ((Nat → RangeOrder) × List Char)) (a b : GoString) :
    (Edge (texts.foldl (fun m t => m.Feed u t.1 t.2) (Markov.Init newRand seed)).words a b ↔
        ∃ t ∈ texts, [a, b] <:+: tokens u t.2) ∧
      ∀ (ords₁ ords₂ : Nat → RangeOrder) (s₁ s₂ : List Char),
        (tokens u s₁).getLast? = some a → (tokens u s₂).head? = some b →
        ¬ [a, b] <:+: tokens u s₁ → ¬ [a, b] <:+: tokens u s₂ →
        ¬ Edge (((Markov.Init newRand seed).Feed u ords₁ s₁).Feed u ords₂ s₂).words a b := by
  have key := feedAll_edge u
  refine ⟨?_, ?_⟩
  · rw [key texts _ inv_nil a b]
    simp [Markov.Init, edge_nil]
  · intro ords₁ ords₂ s₁ s₂ _ _ h1 h2 hE
    have := (key [(ords₁, s₁), (ords₂, s₂)] (Markov.Init newRand seed) inv_nil a b).mp hE
    simp only [Markov.Init, List.mem_cons, List.mem_singleton, exists_eq_or_imp, exists_eq_left,
      List.not_mem_nil, false_and, exists_false, or_false] at this
    rcases this with h | h | h
    · exact edge_nil a b h
    · exact h1 h
    · exact h2 h

/-! ## Sequential IDs and the order of the map traversals -/

theorem feedToken_order (ords ords' : Nat → RangeOrder) (m : Markov) (last tok : GoString)
    (hI : Inv m.words) : (m.feedToken ords last tok).2 = (m.feedToken ords' last tok).2 := by
  unfold Markov.feedToken
  by_cases h : last ≠ []
  · rw [if_pos h, if_pos h]
    exact addNext_order _ _ _ _ m last tok hI
  · rw [if_neg h, if_neg h]

/-- On a graph that satisfies the invariant the result of the driving loop of
`Feed` does not depend on the orders in which the map is traversed. -/
theorem feedTokens_order (toks : List GoString) :
    ∀ (ords ords' : Nat → RangeOrder) (m : Markov) (last : GoString), Inv m.words →
      Markov.feedTokens ords m last toks = Markov.feedTokens ords' m last toks := by
  induction toks with
  | nil => intro _ _ _ _ _; rfl
  | cons tok rest ih =>
    intro ords ords' m last hI
    rw [Markov.feedTokens, Markov.feedTokens, feedToken_order ords ords' m last tok hI]
    exact ih _ _ _ _ (feedToken_inv ords' m last tok hI)

theorem Feed_order (u : Unicode) (ords ords' : Nat → RangeOrder) (m : Markov)
    (input : List Char) (hI : Inv m.words) : m.Feed u ords input = m.Feed u ords' input := by
  rw [Feed_eq_feedTokens, Feed_eq_feedTokens]
  exact feedTokens_order _ ords ords' m [] hI

/-- C11: in every graph built from `Init` by `Feed` and `addNext` calls the
node IDs are exactly `0, …, N-1`, `N` being the number of nodes, each ID once;
the fresh ID `N = len(m.words)` is no key of the map, and writing a node under
it adds an entry and leaves every existing entry as it is. -/
theorem reachable_ids_contiguous (u : Unicode) (m : Markov) (h : Reachable u m) :
    (∀ i, i ∈ m.words.keys ↔ i < m.words.length) ∧ m.words.keys.Nodup ∧
      m.words.keys = List.range m.words.length ∧
      m.words.length ∉ m.words.keys ∧
      ∀ w : Word, m.words.set m.words.length w = m.words ++ [(m.words.length, w)] := by
  have hk := (reachable_inv u m h).keys
  have hfresh : m.words.length ∉ m.words.keys := by
    rw [mem_keys_iff m.words hk]
    exact Nat.lt_irrefl _
  refine ⟨mem_keys_iff m.words hk, ?_, hk, hfresh, fun w => set_of_not_mem m.words _ w hfresh⟩
  rw [hk]
  exact List.nodup_range _

theorem reachable_ids_contiguous_witness :
    Reachable .ascii
        ((Markov.Init (fun _ => ⟨fun k => k, 0⟩) 3).Feed .ascii (fun _ => .storage)
          ['a', ' ', 'b', ' ', 'c', ' ', 'a']) ∧
      ((∀ i, i ∈ ((Markov.Init (fun _ => ⟨fun k => k, 0⟩) 3).Feed .ascii (fun _ => .storage)
            ['a', ' ', 'b', ' ', 'c', ' ', 'a']).words.keys ↔
          i < ((Markov.Init (fun _ => ⟨fun k => k, 0⟩) 3).Feed .ascii (fun _ => .storage)
            ['a', ' ', 'b', ' ', 'c', ' ', 'a']).words.length) ∧
        ((Markov.Init (fun _ => ⟨fun k => k, 0⟩) 3).Feed .ascii (fun _ => .storage)
          ['a', ' ', 'b', ' ', 'c', ' ', 'a']).words.keys.Nodup ∧
        ((Markov.Init (fun _ => ⟨fun k => k, 0⟩) 3).Feed .ascii (fun _ => .storage)
          ['a', ' ', 'b', ' ', 'c', ' ', 'a']).words.keys =
          List.range ((Markov.Init (fun _ => ⟨fun k => k, 0⟩) 3).Feed .ascii
            (fun _ => .storage) ['a', ' ', 'b', ' ', 'c', ' ', 'a']).words.length ∧
        ((Markov.Init (fun _ => ⟨fun k => k, 0⟩) 3).Feed .ascii (fun _ => .storage)
          ['a', ' ', 'b', ' ', 'c', ' ', 'a']).words.length ∉
          ((Markov.Init (fun _ => ⟨fun k => k, 0⟩) 3).Feed .ascii (fun _ => .storage)
            ['a', ' ', 'b', ' ', 'c', ' ', 'a']).words.keys ∧
        ∀ w : Word,
          ((Markov.Init (fun _ => ⟨fun k => k, 0⟩) 3).Feed .ascii (fun _ => .storage)
            ['a', ' ', 'b', ' ', 'c', ' ', 'a']).words.set
              ((Markov.Init (fun _ => ⟨fun k => k, 0⟩) 3).Feed .ascii (fun _ => .storage)
                ['a', ' ', 'b', ' ', 'c', ' ', 'a']).words.length w =
            ((Markov.Init (fun _ => ⟨fun k => k, 0⟩) 3).Feed .ascii (fun _ => .storage)
              ['a', ' ', 'b', ' ', 'c', ' ', 'a']).words ++
              [(((Markov.Init (fun _ => ⟨fun k => k, 0⟩) 3).Feed .ascii (fun _ => .storage)
                ['a', ' ', 'b', ' ', 'c', ' ', 'a']).words.length, w)]) ∧
      ((Markov.Init (fun _ => ⟨fun k => k, 0⟩) 3).Feed .ascii (fun _ => .storage)
          ['a', ' ', 'b', ' ', 'c', ' ', 'a']).words.keys = [0, 1, 2] :=
  ⟨.feed _ _ _ (.init _ _), reachable_ids_contiguous .ascii _ (.feed _ _ _ (.init _ _)),
    by decide⟩

theorem mem_addText (l : List GoString) (x y : GoString) :
    y ∈ addText l x ↔ y ∈ l ∨ y = x := by
  unfold addText
  by_cases h : x ∈ l
  · rw [if_pos h]
    constructor
    · exact Or.inl
    · rintro (h1 | rfl)
      · exact h1
      · exact h
  · rw [if_neg h]
    simp

theorem addText_of_mem (l : List GoString) (x : GoString) (h : x ∈ l) : addText l x = l := by
  unfold addText
  rw [if_pos h]

theorem texts_set_new (m : WordMap) (id : ID) (w : Word) (h : id ∉ m.keys) :
    (m.set id w).texts = m.texts ++ [w.Word] := by
  rw [set_of_not_mem m id w h]
  simp [WordMap.texts]

theorem texts_set_same (m : WordMap) (id : ID) (w : Word) (h : id ∈ m.keys)
    (hw : w.Word = (m.get id).Word) : (m.set id w).texts = m.texts := by
  induction m with
  | nil => simp [WordMap.keys] at h
  | cons e t ih =>
    obtain ⟨k, v⟩ := e
    by_cases hk : k = id
    · subst hk
      have hg : WordMap.get ((k, v) :: t) k = v := by simp [WordMap.get, List.lookup]
      rw [hg] at hw
      simp [WordMap.set, WordMap.texts, hw]
    · have ht : id ∈ WordMap.keys t := by
        simp only [WordMap.keys, List.map_cons, List.mem_cons] at h
        rcases h with h | h
        · exact absurd h.symm hk
        · exact h
      have hb : (id == k) = false := by simpa using fun h' : id = k => hk h'.symm
      have hg : WordMap.get ((k, v) :: t) id = WordMap.get t id := by
        simp [WordMap.get, List.lookup, hb]
      rw [hg] at hw
      have := ih ht hw
      simp only [WordMap.texts] at this
      simp [WordMap.set, hk, WordMap.texts, this]

theorem mem_texts_iff (m : WordMap) (hk : m.keys = List.range m.length) (x : GoString) :
    x ∈ m.texts ↔ ∃ i, i < m.length ∧ (m.get i).Word = x := by
  unfold WordMap.texts
  rw [List.mem_map]
  constructor
  · rintro ⟨⟨i, w⟩, he, rfl⟩
    obtain ⟨hi, hg⟩ := (mem_iff_get m hk i w).mp he
    exact ⟨i, hi, by rw [hg]⟩
  · rintro ⟨i, hi, rfl⟩
    exact ⟨(i, m.get i), (mem_iff_get m hk i _).mpr ⟨hi, rfl⟩, rfl⟩

theorem linkNext_texts (o₂ : RangeOrder) (m₁ : Markov) (nid : Nat) (word : GoString)
    (hI : Inv m₁.words) :
    (Markov.linkNext o₂ m₁ nid word).words.texts = addText m₁.words.texts word := by
  unfold Markov.linkNext
  cases h : m₁.findWordID o₂ word with
  | none =>
    have hfresh := findWordID_none o₂ m₁ word hI.keys h
    have hnot : word ∉ m₁.words.texts := by
      rw [mem_texts_iff m₁.words hI.keys]
      rintro ⟨i, hi, ht⟩
      exact hfresh i hi ht
    have hkey : m₁.words.length ∉ m₁.words.keys := by
      rw [mem_keys_iff m₁.words hI.keys]; exact Nat.lt_irrefl _
    show (m₁.words.set m₁.words.length ⟨word, [nid]⟩).texts = _
    rw [texts_set_new _ _ _ hkey]
    unfold addText
    rw [if_neg hnot]
  | some wid =>
    obtain ⟨hw, hwt⟩ := findWordID_some o₂ m₁ word wid hI.keys h
    have hin : word ∈ m₁.words.texts :=
      (mem_texts_iff m₁.words hI.keys word).mpr ⟨wid, hw, hwt⟩
    rw [addText_of_mem _ _ hin]
    simp only
    by_cases hmem : nid ∈ (m₁.words.get wid).Next
    · rw [if_pos hmem]
    · rw [if_neg hmem]
      exact texts_set_same m₁.words wid _ ((mem_keys_iff m₁.words hI.keys wid).mpr hw) rfl

/-- The nodes that one call `addNext(word, next)` creates: one for `next` and
then one for `word`, each unless the text has a node already. -/
theorem addNext_texts (o₁ o₂ : RangeOrder) (m : Markov) (word next : GoString)
    (hI : Inv m.words) :
    (m.addNext o₁ o₂ word next).words.texts = addText (addText m.words.texts next) word := by
  cases h : m.findWordID o₁ next with
  | some nid =>
    obtain ⟨hn, ht⟩ := findWordID_some o₁ m next nid hI.keys h
    rw [addNext_found o₁ o₂ m word next nid h, linkNext_texts o₂ m nid word hI,
      addText_of_mem _ next ((mem_texts_iff m.words hI.keys next).mpr ⟨nid, hn, ht⟩)]
  | none =>
    have hfresh := findWordID_none o₁ m next hI.keys h
    have hnot : next ∉ m.words.texts := by
      rw [mem_texts_iff m.words hI.keys]
      rintro ⟨i, hi, ht⟩
      exact hfresh i hi ht
    have hkey : m.words.length ∉ m.words.keys := by
      rw [mem_keys_iff m.words hI.keys]; exact Nat.lt_irrefl _
    obtain ⟨hI₁, _⟩ := push_spec m.words hI ⟨next, []⟩ hfresh (by simp) List.nodup_nil
    rw [addNext_fresh o₁ o₂ m word next h, linkNext_texts o₂ _ _ word hI₁]
    show addText (m.words.set m.words.length ⟨next, []⟩).texts word = _
    rw [texts_set_new _ _ _ hkey]
    congr 1
    unfold addText
    rw [if_neg hnot]

theorem feedTokens_texts (toks : List GoString) :
    ∀ (ords : Nat → RangeOrder) (m : Markov) (last : GoString), Inv m.words → last ≠ [] →
      last ∈ m.words.texts → [] ∉ toks →
      (Markov.feedTokens ords m last toks).words.texts = toks.foldl addText m.words.texts := by
  induction toks with
  | nil => intro _ _ _ _ _ _ _; rfl
  | cons tok rest ih =>
    intro ords m last hI hl hin hne
    have htok : tok ≠ [] := fun h => hne (by rw [h]; exact List.mem_cons_self _ _)
    have hrest : [] ∉ rest := fun h => hne (List.mem_cons_of_mem _ h)
    have hstep : (m.feedToken ords last tok).2 = m.addNext (ords 0) (ords 1) last tok := by
      unfold Markov.feedToken
      rw [if_pos hl]
    have htexts : (m.addNext (ords 0) (ords 1) last tok).words.texts =
        addText m.words.texts tok := by
      rw [addNext_texts _ _ m last tok hI]
      exact addText_of_mem _ _ ((mem_addText _ _ _).mpr (Or.inl hin))
    rw [Markov.feedTokens, List.foldl_cons, ← htexts, ← hstep]
    apply ih _ _ tok (feedToken_inv ords m last tok hI) htok _ hrest
    rw [hstep, htexts]
    exact (mem_addText _ _ _).mpr (Or.inr rfl)

theorem Feed_texts (u : Unicode) (ords : Nat → RangeOrder) (m : Markov) (input : List Char)
    (t₀ t₁ : GoString) (rest : List GoString) (hI : Inv m.words)
    (h : tokens u input = t₀ :: t₁ :: rest) :
    (m.Feed u ords input).words.texts = (t₁ :: t₀ :: rest).foldl addText m.words.texts := by
  have hne : [] ∉ tokens u input :=
    tokenized_nonempty u input _ (tokens_tokenized_aux u input.length input (Nat.le_refl _))
  rw [h] at hne
  have h0 : t₀ ≠ [] := fun h' => hne (by rw [h']; exact List.mem_cons_self _ _)
  have h1 : t₁ ≠ [] := fun h' =>
    hne (by rw [h']; exact List.mem_cons_of_mem _ (List.mem_cons_self _ _))
  have hrest : [] ∉ rest := fun h' =>
    hne (List.mem_cons_of_mem _ (List.mem_cons_of_mem _ h'))
  have hfirst : (m.feedToken ords [] t₀) = (ords, m) := by
    unfold Markov.feedToken
    simp
  have hstep : (m.feedToken ords t₀ t₁).2 = m.addNext (ords 0) (ords 1) t₀ t₁ := by
    unfold Markov.feedToken
    rw [if_pos h0]
  have htexts := addNext_texts (ords 0) (ords 1) m t₀ t₁ hI
  rw [Feed_eq_feedTokens, h, Markov.feedTokens, hfirst, Markov.feedTokens,
    List.foldl_cons, List.foldl_cons, ← htexts, ← hstep]
  apply feedTokens_texts rest _ _ t₁ (feedToken_inv ords m t₀ t₁ hI) h1 _ hrest
  rw [hstep, htexts]
  exact (mem_addText _ _ _).mpr (Or.inl ((mem_addText _ _ _).mpr (Or.inr rfl)))

theorem eq_map_range (m : WordMap) (hk : m.keys = List.range m.length) :
    m = (List.range m.length).map (fun i => (i, m.get i)) := by
  apply List.ext_getElem
  · simp
  · intro j h1 h2
    have hj : (m[j]).1 = j := by
      have hjk : j < m.keys.length := by rw [length_keys]; exact h1
      have : m.keys[j] = (m[j]).1 := by
        simp [WordMap.keys]
      rw [← this]
      simp [hk]
    have hmem : ((m[j]).1, (m[j]).2) ∈ m := List.getElem_mem _
    obtain ⟨_, hg⟩ := (mem_iff_get m hk _ _).mp hmem
    rw [hj] at hg
    rw [List.getElem_map, List.getElem_range]
    exact Prod.ext hj hg.symm

theorem texts_eq_map_range (m : WordMap) (hk : m.keys = List.range m.length) :
    m.texts = (List.range m.length).map (fun i => (m.get i).Word) := by
  unfold WordMap.texts
  conv_lhs => rw [eq_map_range m hk]
  rw [List.map_map]
  rfl

theorem inv_texts_nodup (m : WordMap) (hI : Inv m) : m.texts.Nodup := by
  rw [texts_eq_map_range m hI.keys]
  apply List.Nodup.map_on _ (List.nodup_range _)
  intro i hi j hj h
  rw [List.mem_range] at hi hj
  exact hI.inj i j hi hj h

theorem inv_texts_at_id (m : WordMap) (hI : Inv m) :
    ∀ e ∈ m, m.texts[e.1]? = some e.2.Word := by
  intro e he
  obtain ⟨i, w⟩ := e
  obtain ⟨hi, hg⟩ := (mem_iff_get m hI.keys i w).mp he
  have hlen : i < m.texts.length := by simpa [WordMap.texts] using hi
  show m.texts[i]? = some w.Word
  rw [List.getElem?_eq_getElem hlen]
  simp only [texts_eq_map_range m hI.keys, List.getElem_map, List.getElem_range]
  rw [hg]

/-- C12 (as amended): after `Init` and `Feed` of a text whose token sequence
is `t₀, t₁, …, tₙ` with `n ≥ 1`, IDs are assigned sequentially from 0 in the
order in which nodes are created, which is the first-seen order of the
sequence `t₁, t₀, t₂, …, tₙ`: every call `addNext(tᵢ₋₁, tᵢ)` creates the node
of `tᵢ` before that of `tᵢ₋₁`, so `t₁` has ID 0 and `t₀`, when it differs from
`t₁`, has ID 1. -/
theorem Feed_ids_creation_order (u : Unicode) (newRand : Int → Rand) (seed : Int)
    (ords : Nat → RangeOrder) (input : List Char) (t₀ t₁ : GoString) (rest : List GoString)
    (h : tokens u input = t₀ :: t₁ :: rest) :
    ((Markov.Init newRand seed).Feed u ords input).words.keys =
        List.range ((Markov.Init newRand seed).Feed u ords input).words.length ∧
      ((Markov.Init newRand seed).Feed u ords input).words.texts =
        firstSeen (t₁ :: t₀ :: rest) ∧
      (firstSeen (t₁ :: t₀ :: rest)).Nodup ∧
      ∀ e ∈ ((Markov.Init newRand seed).Feed u ords input).words,
        (firstSeen (t₁ :: t₀ :: rest))[e.1]? = some e.2.Word := by
  have hI := Feed_inv u ords (Markov.Init newRand seed) input inv_nil
  have ht := Feed_texts u ords (Markov.Init newRand seed) input t₀ t₁ rest inv_nil h
  have ht' : ((Markov.Init newRand seed).Feed u ords input).words.texts =
      firstSeen (t₁ :: t₀ :: rest) := ht
  refine ⟨hI.keys, ht', ?_, ?_⟩
  · rw [← ht']
    exact inv_texts_nodup _ hI
  · rw [← ht']
    exact inv_texts_at_id _ hI

theorem Feed_ids_creation_order_witness :
    tokens .ascii ['a', ' ', 'b', ' ', 'a', ' ', 'c'] = ['a'] :: ['b'] :: [['a'], ['c']] ∧
      (((Markov.Init (fun _ => ⟨fun k => k, 0⟩) 5).Feed .ascii (fun _ => .reversed)
            ['a', ' ', 'b', ' ', 'a', ' ', 'c']).words.keys =
          List.range ((Markov.Init (fun _ => ⟨fun k => k, 0⟩) 5).Feed .ascii
            (fun _ => .reversed) ['a', ' ', 'b', ' ', 'a', ' ', 'c']).words.length ∧
        ((Markov.Init (fun _ => ⟨fun k => k, 0⟩) 5).Feed .ascii (fun _ => .reversed)
            ['a', ' ', 'b', ' ', 'a', ' ', 'c']).words.texts =
          firstSeen (['b'] :: ['a'] :: [['a'], ['c']]) ∧
        (firstSeen (['b'] :: ['a'] :: [['a'], ['c']])).Nodup ∧
        ∀ e ∈ ((Markov.Init (fun _ => ⟨fun k => k, 0⟩) 5).Feed .ascii (fun _ => .reversed)
            ['a', ' ', 'b', ' ', 'a', ' ', 'c']).words,
          (firstSeen (['b'] :: ['a'] :: [['a'], ['c']]))[e.1]? = some e.2.Word) ∧
      firstSeen (['b'] :: ['a'] :: [['a'], ['c']]) = [['b'], ['a'], ['c']] :=
  ⟨by decide,
    Feed_ids_creation_order .ascii (fun _ => ⟨fun k => k, 0⟩) 5 (fun _ => .reversed)
      ['a', ' ', 'b', ' ', 'a', ' ', 'c'] ['a'] ['b'] [['a'], ['c']] (by decide),
    by decide⟩

/-- C12 (as stated) fails on the text `a b`: there the first token `a` has
ID 1 and the second token `b` has ID 0, so the ID of the node `a` is not the
position of `a` in the first-seen order `a, b` of the token sequence. -/
theorem Feed_ids_first_seen_counterexample :
    tokens .ascii ['a', ' ', 'b'] = [['a'], ['b']] ∧
      ((Markov.Init (fun _ => ⟨fun k => k, 0⟩) 5).Feed .ascii (fun _ => .storage)
          ['a', ' ', 'b']).words = [(0, ⟨['b'], []⟩), (1, ⟨['a'], [0]⟩)] ∧
      ¬ ∀ e ∈ ((Markov.Init (fun _ => ⟨fun k => k, 0⟩) 5).Feed .ascii (fun _ => .storage)
          ['a', ' ', 'b']).words,
        (firstSeen (tokens .ascii ['a', ' ', 'b']))[e.1]? = some e.2.Word := by
  decide

/-! ## Texts with one token and graphs with one node -/

/-- C13 (as amended): `Feed` of a text that has exactly one token calls
`addNext` not at all and leaves the graph as it was; after `Init` the graph
has no edge and no node. -/
theorem Feed_single_token (u : Unicode) (ords : Nat → RangeOrder) (m : Markov)
    (input : List Char) (t : GoString) (h : tokens u input = [t]) :
    m.Feed u ords input = m ∧
      ∀ (newRand : Int → Rand) (seed : Int),
        ((Markov.Init newRand seed).Feed u ords input).words = [] := by
  have key : ∀ m' : Markov, m'.Feed u ords input = m' := by
    intro m'
    rw [Feed_eq_feedTokens, h]
    simp [Markov.feedTokens, Markov.feedToken]
  exact ⟨key m, fun newRand seed => by rw [key]; rfl⟩

theorem Feed_single_token_witness :
    tokens .ascii ['h', 'i', ' '] = [['h', 'i']] ∧
      (demoGraph.Feed .ascii (fun _ => .storage) ['h', 'i', ' '] = demoGraph ∧
        ∀ (newRand : Int → Rand) (seed : Int),
          ((Markov.Init newRand seed).Feed .ascii (fun _ => .storage) ['h', 'i', ' ']).words
            = []) :=
  ⟨by decide, Feed_single_token .ascii (fun _ => .storage) demoGraph ['h', 'i', ' '] ['h', 'i']
    (by decide)⟩

/-- C13 (as stated) fails on the text `hi`: it has the one token `hi`, and
after `Init` and `Feed` the graph has no node, so it is not a graph of exactly
one node with text `hi` and no successor. -/
theorem Feed_single_token_counterexample :
    tokens .ascii ['h', 'i'] = [['h', 'i']] ∧
      ((Markov.Init (fun _ => ⟨fun k => k, 0⟩) 1).Feed .ascii (fun _ => .storage)
        ['h', 'i']).words = [] ∧
      ¬ ∃ e : ID × Word,
        ((Markov.Init (fun _ => ⟨fun k => k, 0⟩) 1).Feed .ascii (fun _ => .storage)
          ['h', 'i']).words = [e] ∧ e.2.Word = ['h', 'i'] ∧ e.2.Next = [] := by
  refine ⟨by decide, by decide, ?_⟩
  rintro ⟨e, he, _⟩
  have h0 : ((Markov.Init (fun _ => ⟨fun k => k, 0⟩) 1).Feed .ascii (fun _ => .storage)
      ['h', 'i']).words = [] := by decide
  rw [h0] at he
  cases he

theorem GenerateLoop_terminal (m : Markov) (k : Nat) (r : Rand) (word : Word)
    (chain : List GoString) (h : word.Next = []) :
    m.GenerateLoop k r word chain = .ok (chain, word, r) := by
  cases k with
  | zero => rfl
  | succ k => simp [Markov.GenerateLoop, h]

theorem GenerateLoop_self (m : Markov) (word : Word) (s : ID) (hN : word.Next = [s])
    (hs : m.words.get s = word) :
    ∀ (k : Nat) (r : Rand) (chain : List GoString),
      m.GenerateLoop k r word chain = .ok (chain ++ List.replicate k word.Word, word, r) := by
  intro k
  induction k with
  | zero => intro r chain; simp [Markov.GenerateLoop]
  | succ k ih =>
    intro r chain
    rw [Markov.GenerateLoop]
    simp only [hN, List.length_singleton, Nat.one_ne_zero, if_false, if_true,
      List.getElem?_cons_zero, hs]
    rw [ih]
    simp [List.replicate_succ]

theorem Int63n_one (r : Rand) :
    r.Int63n (1 : Nat) = .ok (0, { r with pos := r.pos + 1 }) := by
  rw [Int63n_pos r 1 (by decide)]
  simp [Nat.mod_one]

/-- C14 (as amended): on a graph with exactly one node, when `chainLength` is
within the capacity that `make` accepts, `Generate` returns a chain of exactly
one token when `chainLength ≤ 1` or when the node read under ID 0 has no
successor; when that node is its own single successor, as in the graph of the
text `a a`, the chain is `max 1 chainLength` copies of its text. -/
theorem Generate_single_node (m : Markov) (rt : Runtime) (n : Nat) (h : m.words.length = 1)
    (hcap : n ≤ rt.maxCap) :
    ((n ≤ 1 ∨ (m.words.get 0).Next = []) →
        ∃ chain, m.Generate rt n = .ok chain ∧ chain.length = 1) ∧
      ((m.words.get 0).Next = [0] →
        m.Generate rt n = .ok (List.replicate (max 1 n) (m.words.get 0).Word)) := by
  have hwalk : m.GenerateWalk rt n =
      m.GenerateLoop (n - 1) { m.rand with pos := m.rand.pos + 1 } (m.words.get 0)
        [(m.words.get 0).Word] := by
    unfold Markov.GenerateWalk
    rw [h]
    have := Int63n_one m.rand
    simp only [Nat.cast_one] at this ⊢
    rw [this]
    simp only
    rw [if_neg (Nat.not_lt.mpr hcap)]
  constructor
  · rintro (hn | hN)
    · have h0 : n - 1 = 0 := by omega
      rw [h0] at hwalk
      refine ⟨_, Generate_of_walk m rt n _ _ _ (by rw [hwalk]; rfl), by simp⟩
    · rw [GenerateLoop_terminal m _ _ _ _ hN] at hwalk
      exact ⟨_, Generate_of_walk m rt n _ _ _ hwalk, by simp⟩
  · intro hN
    rw [GenerateLoop_self m _ 0 hN rfl] at hwalk
    rw [Generate_of_walk m rt n _ _ _ hwalk]
    congr 1
    have hmax : max 1 n = (n - 1) + 1 := by omega
    rw [hmax, List.replicate_succ]
    rfl

theorem Generate_single_node_witness :
    ((Markov.Init (fun _ => ⟨fun k => k, 0⟩) 1).Feed .ascii (fun _ => .storage)
        ['a', ' ', 'a']).words.length = 1 ∧
      (4 : Nat) ≤ Runtime.amd64.maxCap ∧
      ((((4 : Nat) ≤ 1 ∨
          (((Markov.Init (fun _ => ⟨fun k => k, 0⟩) 1).Feed .ascii (fun _ => .storage)
            ['a', ' ', 'a']).words.get 0).Next = []) →
          ∃ chain, ((Markov.Init (fun _ => ⟨fun k => k, 0⟩) 1).Feed .ascii (fun _ => .storage)
            ['a', ' ', 'a']).Generate .amd64 4 = .ok chain ∧ chain.length = 1) ∧
        ((((Markov.Init (fun _ => ⟨fun k => k, 0⟩) 1).Feed .ascii (fun _ => .storage)
            ['a', ' ', 'a']).words.get 0).Next = [0] →
          ((Markov.Init (fun _ => ⟨fun k => k, 0⟩) 1).Feed .ascii (fun _ => .storage)
            ['a', ' ', 'a']).Generate .amd64 4 =
            .ok (List.replicate (max 1 4)
              (((Markov.Init (fun _ => ⟨fun k => k, 0⟩) 1).Feed .ascii (fun _ => .storage)
                ['a', ' ', 'a']).words.get 0).Word))) ∧
      (((Markov.Init (fun _ => ⟨fun k => k, 0⟩) 1).Feed .ascii (fun _ => .storage)
        ['a', ' ', 'a']).words.get 0).Next = [0] :=
  ⟨by decide, by decide,
    Generate_single_node ((Markov.Init (fun _ => ⟨fun k => k, 0⟩) 1).Feed .ascii
      (fun _ => .storage) ['a', ' ', 'a']) .amd64 4 (by decide) (by decide),
    by decide⟩

/-- C14 (as stated) fails on the graph of the text `a a`: it has exactly one
node, which is its own successor, and `Generate(3)` returns three tokens. -/
theorem Generate_single_node_counterexample :
    ((Markov.Init (fun _ => ⟨fun k => k, 0⟩) 1).Feed .ascii (fun _ => .storage)
        ['a', ' ', 'a']).words = [(0, ⟨['a'], [0]⟩)] ∧
      ((Markov.Init (fun _ => ⟨fun k => k, 0⟩) 1).Feed .ascii (fun _ => .storage)
        ['a', ' ', 'a']).Generate .amd64 3 = .ok [['a'], ['a'], ['a']] ∧
      ¬ ∃ chain, ((Markov.Init (fun _ => ⟨fun k => k, 0⟩) 1).Feed .ascii (fun _ => .storage)
        ['a', ' ', 'a']).Generate .amd64 3 = .ok chain ∧ chain.length = 1 := by
  refine ⟨by decide, by decide, ?_⟩
  rintro ⟨chain, hc, hl⟩
  have h3 : ((Markov.Init (fun _ => ⟨fun k => k, 0⟩) 1).Feed .ascii (fun _ => .storage)
      ['a', ' ', 'a']).Generate .amd64 3 = .ok [['a'], ['a'], ['a']] := by decide
  rw [h3] at hc
  injection hc with hc
  rw [← hc] at hl
  simp at hl

/-! ## The scenario `Down the rabbit hole.` -/

theorem findWordID_words (o : RangeOrder) (m m' : Markov) (word : GoString)
    (h : m.words = m'.words) : m.findWordID o word = m'.findWordID o word := by
  unfold Markov.findWordID
  rw [h]

theorem linkNext_words (o : RangeOrder) (m₁ m₁' : Markov) (nid : ID) (word : GoString)
    (h : m₁.words = m₁'.words) :
    (Markov.linkNext o m₁ nid word).words = (Markov.linkNext o m₁' nid word).words := by
  unfold Markov.linkNext
  rw [findWordID_words o m₁ m₁' word h]
  cases m₁'.findWordID o word with
  | none => simp only [h]
  | some wid =>
    simp only [h]
    split <;> simp [h]

/-- The node map after `addNext` depends on the node map before it only, not
on the generator. -/
theorem addNext_words (o₁ o₂ : RangeOrder) (m m' : Markov) (word next : GoString)
    (h : m.words = m'.words) :
    (m.addNext o₁ o₂ word next).words = (m'.addNext o₁ o₂ word next).words := by
  have hf := findWordID_words o₁ m m' next h
  cases hc : m'.findWordID o₁ next with
  | some nid =>
    rw [addNext_found o₁ o₂ m word next nid (by rw [hf, hc]),
      addNext_found o₁ o₂ m' word next nid hc]
    exact linkNext_words o₂ m m' nid word h
  | none =>
    rw [addNext_fresh o₁ o₂ m word next (by rw [hf, hc]), addNext_fresh o₁ o₂ m' word next hc,
      h]
    exact linkNext_words o₂ _ _ _ word (by simp only [h])

theorem feedTokens_words (toks : List GoString) :
    ∀ (ords : Nat → RangeOrder) (m m' : Markov) (last : GoString), m.words = m'.words →
      (Markov.feedTokens ords m last toks).words =
        (Markov.feedTokens ords m' last toks).words := by
  induction toks with
  | nil => intro _ _ _ _ h; exact h
  | cons tok rest ih =>
    intro ords m m' last h
    rw [Markov.feedTokens, Markov.feedTokens]
    unfold Markov.feedToken
    by_cases hl : last ≠ []
    · simp only [if_pos hl]
      exact ih _ _ _ _ (addNext_words _ _ m m' last tok h)
    · simp only [if_neg hl]
      exact ih _ _ _ _ h

theorem Feed_words (u : Unicode) (ords : Nat → RangeOrder) (m m' : Markov) (input : List Char)
    (h : m.words = m'.words) : (m.Feed u ords input).words = (m'.Feed u ords input).words := by
  rw [Feed_eq_feedTokens, Feed_eq_feedTokens]
  exact feedTokens_words _ ords m m' [] h

theorem rabbit_words (newRand : Int → Rand) (seed : Int) (ords : Nat → RangeOrder) :
    ((Markov.Init newRand seed).Feed .ascii ords rabbitText).words = rabbitWords := by
  rw [Feed_order .ascii ords (fun _ => .storage) _ _ inv_nil,
    Feed_words .ascii (fun _ => .storage) (Markov.Init newRand seed)
      (Markov.Init (fun _ => ⟨fun _ => 0, 0⟩) 0) rabbitText rfl]
  decide

theorem rabbit_loop (m : Markov) (hw : m.words = rabbitWords) (r : Rand) (k : Nat) :
    m.GenerateLoop (k + 4) r ⟨"Down".toList, [0]⟩ ["Down".toList] =
      .ok (rabbitChain, ⟨".".toList, []⟩, r) := by
  have g0 : m.words.get 0 = ⟨"the".toList, [2]⟩ := by rw [hw]; rfl
  have g2 : m.words.get 2 = ⟨"rabbit".toList, [3]⟩ := by rw [hw]; rfl
  have g3 : m.words.get 3 = ⟨"hole".toList, [4]⟩ := by rw [hw]; rfl
  have g4 : m.words.get 4 = ⟨".".toList, []⟩ := by rw [hw]; rfl
  rw [Markov.GenerateLoop]
  simp only [List.length_singleton, Nat.one_ne_zero, if_false, if_true,
    List.getElem?_cons_zero, g0]
  rw [Markov.GenerateLoop]
  simp only [List.length_singleton, Nat.one_ne_zero, if_false, if_true,
    List.getElem?_cons_zero, g2]
  rw [Markov.GenerateLoop]
  simp only [List.length_singleton, Nat.one_ne_zero, if_false, if_true,
    List.getElem?_cons_zero, g3]
  rw [Markov.GenerateLoop]
  simp only [List.length_singleton, Nat.one_ne_zero, if_false, if_true,
    List.getElem?_cons_zero, g4]
  rw [GenerateLoop_terminal m k r _ _ rfl]
  rfl

theorem linkNext_rand (o : RangeOrder) (m₁ : Markov) (nid : ID) (word : GoString) :
    (Markov.linkNext o m₁ nid word).rand = m₁.rand := by
  unfold Markov.linkNext
  cases m₁.findWordID o word with
  | none => rfl
  | some wid =>
    simp only
    split <;> rfl

theorem addNext_rand (o₁ o₂ : RangeOrder) (m : Markov) (word next : GoString) :
    (m.addNext o₁ o₂ word next).rand = m.rand := by
  cases hc : m.findWordID o₁ next with
  | some nid => rw [addNext_found o₁ o₂ m word next nid hc, linkNext_rand]
  | none => rw [addNext_fresh o₁ o₂ m word next hc, linkNext_rand]

theorem feedTokens_rand (toks : List GoString) :
    ∀ (ords : Nat → RangeOrder) (m : Markov) (last : GoString),
      (Markov.feedTokens ords m last toks).rand = m.rand := by
  induction toks with
  | nil => intro _ _ _; rfl
  | cons tok rest ih =>
    intro ords m last
    rw [Markov.feedTokens, ih]
    unfold Markov.feedToken
    by_cases hl : last ≠ []
    · simp only [if_pos hl]
      exact addNext_rand _ _ m last tok
    · simp only [if_neg hl]

/-- The method `Feed` leaves the generator as it is. -/
theorem Feed_rand (u : Unicode) (ords : Nat → RangeOrder) (m : Markov) (input : List Char) :
    (m.Feed u ords input).rand = m.rand := by
  rw [Feed_eq_feedTokens]
  exact feedTokens_rand _ ords m []

/-- C15 (as amended): after `Init` and `Feed` of `Down the rabbit hole.`, for
every generator whose first draw selects the node with text `Down`, for every
order of the map traversals and every `chainLength ≥ 5` within the capacity
that `make` accepts, `Generate` returns `Down, the, rabbit, hole, .` and
consumes that one draw only, and `WordJoin` of the chain is
`Down the rabbit hole.`, with no space before the period. -/
theorem rabbit_hole_scenario (newRand : Int → Rand) (seed : Int) (ords : Nat → RangeOrder)
    (rt : Runtime) (n : Nat) (hn : 5 ≤ n) (hcap : n ≤ rt.maxCap)
    (hdraw : (((Markov.Init newRand seed).Feed .ascii ords rabbitText).words.get
      ((newRand seed).stream (newRand seed).pos %
        ((Markov.Init newRand seed).Feed .ascii ords rabbitText).words.length)).Word =
      "Down".toList) :
    ((Markov.Init newRand seed).Feed .ascii ords rabbitText).GenerateWalk rt n =
        .ok (rabbitChain, ⟨".".toList, []⟩,
          { newRand seed with pos := (newRand seed).pos + 1 }) ∧
      ((Markov.Init newRand seed).Feed .ascii ords rabbitText).Generate rt n =
        .ok rabbitChain ∧
      WordJoin .ascii rabbitChain = .ok rabbitText := by
  have hw := rabbit_words newRand seed ords
  have hr : ((Markov.Init newRand seed).Feed .ascii ords rabbitText).rand = newRand seed :=
    Feed_rand .ascii ords _ rabbitText
  have hlen : ((Markov.Init newRand seed).Feed .ascii ords rabbitText).words.length = 5 := by
    rw [hw]; rfl
  rw [hlen] at hdraw
  have hx : (newRand seed).stream (newRand seed).pos % 5 = 1 := by
    have hlt : (newRand seed).stream (newRand seed).pos % 5 < 5 := Nat.mod_lt _ (by decide)
    rw [hw] at hdraw
    generalize (newRand seed).stream (newRand seed).pos % 5 = x at hdraw hlt
    interval_cases x
    · exact absurd hdraw (by decide)
    · rfl
    · exact absurd hdraw (by decide)
    · exact absurd hdraw (by decide)
    · exact absurd hdraw (by decide)
  have hwalk : ((Markov.Init newRand seed).Feed .ascii ords rabbitText).GenerateWalk rt n =
      .ok (rabbitChain, ⟨".".toList, []⟩,
        { newRand seed with pos := (newRand seed).pos + 1 }) := by
    obtain ⟨k, rfl⟩ : ∃ k, n = k + 5 := ⟨n - 5, by omega⟩
    unfold Markov.GenerateWalk
    rw [hlen, hr, Int63n_pos (newRand seed) 5 (by decide), hx]
    have g1 : ((Markov.Init newRand seed).Feed .ascii ords rabbitText).words.get 1 =
        ⟨"Down".toList, [0]⟩ := by rw [hw]; rfl
    simp only [g1]
    rw [if_neg (Nat.not_lt.mpr hcap)]
    exact rabbit_loop _ hw _ k
  exact ⟨hwalk, Generate_of_walk _ rt n _ _ _ hwalk, by decide⟩

theorem rabbit_hole_scenario_witness :
    (5 : Nat) ≤ 7 ∧ (7 : Nat) ≤ Runtime.amd64.maxCap ∧
      (((Markov.Init (fun _ => ⟨fun k => 5 * k + 1, 0⟩) 11111).Feed .ascii (fun _ => .reversed)
          rabbitText).words.get
        (((fun _ => ⟨fun k => 5 * k + 1, 0⟩ : Int → Rand) 11111).stream
            ((fun _ => ⟨fun k => 5 * k + 1, 0⟩ : Int → Rand) 11111).pos %
          ((Markov.Init (fun _ => ⟨fun k => 5 * k + 1, 0⟩) 11111).Feed .ascii
            (fun _ => .reversed) rabbitText).words.length)).Word = "Down".toList ∧
      (((Markov.Init (fun _ => ⟨fun k => 5 * k + 1, 0⟩) 11111).Feed .ascii (fun _ => .reversed)
            rabbitText).GenerateWalk .amd64 7 =
          .ok (rabbitChain, ⟨".".toList, []⟩,
            { (fun _ => ⟨fun k => 5 * k + 1, 0⟩ : Int → Rand) 11111 with
              pos := ((fun _ => ⟨fun k => 5 * k + 1, 0⟩ : Int → Rand) 11111).pos + 1 }) ∧
        ((Markov.Init (fun _ => ⟨fun k => 5 * k + 1, 0⟩) 11111).Feed .ascii (fun _ => .reversed)
          rabbitText).Generate .amd64 7 = .ok rabbitChain ∧
        WordJoin .ascii rabbitChain = .ok rabbitText) :=
  ⟨by decide, by decide, by decide,
    rabbit_hole_scenario (fun _ => ⟨fun k => 5 * k + 1, 0⟩) 11111 (fun _ => .reversed) .amd64 7
      (by decide) (by decide) (by decide)⟩

/-- C15 (as stated) fails at `chainLength = 2^62`, which is at least 5: with a
generator whose first draw selects `Down`, `Generate` panics in `make` and
returns no chain. -/
theorem rabbit_hole_scenario_counterexample :
    (5 : Nat) ≤ 2 ^ 62 ∧
      (((Markov.Init (fun _ => ⟨fun k => 5 * k + 1, 0⟩) 11111).Feed .ascii (fun _ => .storage)
          rabbitText).words.get
        (((fun _ => ⟨fun k => 5 * k + 1, 0⟩ : Int → Rand) 11111).stream
            ((fun _ => ⟨fun k => 5 * k + 1, 0⟩ : Int → Rand) 11111).pos %
          ((Markov.Init (fun _ => ⟨fun k => 5 * k + 1, 0⟩) 11111).Feed .ascii
            (fun _ => .storage) rabbitText).words.length)).Word = "Down".toList ∧
      ((Markov.Init (fun _ => ⟨fun k => 5 * k + 1, 0⟩) 11111).Feed .ascii (fun _ => .storage)
        rabbitText).Generate .amd64 (2 ^ 62) = .error .makesliceCapOutOfRange ∧
      ¬ ((Markov.Init (fun _ => ⟨fun k => 5 * k + 1, 0⟩) 11111).Feed .ascii (fun _ => .storage)
        rabbitText).Generate .amd64 (2 ^ 62) = .ok rabbitChain := by
  have he : ((Markov.Init (fun _ => ⟨fun k => 5 * k + 1, 0⟩) 11111).Feed .ascii
      (fun _ => .storage) rabbitText).Generate .amd64 (2 ^ 62) =
      .error .makesliceCapOutOfRange :=
    Generate_cap _ _ _ (by rw [rabbit_words]; decide) (by decide)
  refine ⟨by decide, by decide, he, ?_⟩
  intro h
  rw [he] at h
  cases h

/-! ## Detokenizing a token sequence -/

theorem accept_eq_none_iff (u : Unicode) (c : Char) :
    accept u c = none ↔ (u.IsLetter c || u.IsDigit c || u.IsPunct c) = false := by
  unfold accept
  rw [List.find?_eq_none]
  simp [and_assoc]

theorem tokenized_flatten (u : Unicode) (input : List Char) (ts : List GoString)
    (h : Tokenized u input ts) :
    ts.flatten = input.filter (fun c => u.IsLetter c || u.IsDigit c || u.IsPunct c) := by
  induction h with
  | done => rfl
  | skip c rest ts ha _ ih =>
    have hc := (accept_eq_none_iff u c).mp ha
    rw [List.filter_cons_of_neg (by simpa using hc), ih]
  | token c mf t rest ts ha ht _ _ ih =>
    have hall : ∀ x ∈ c :: t, (u.IsLetter x || u.IsDigit x || u.IsPunct x) = true := by
      intro x hx
      have hne := accept_ne_none_of_holds u c x mf ha (ht x hx)
      rw [Ne, accept_eq_none_iff] at hne
      revert hne
      cases u.IsLetter x <;> cases u.IsDigit x <;> cases u.IsPunct x <;> simp
    have hfil : (c :: t).filter (fun c => u.IsLetter c || u.IsDigit c || u.IsPunct c) = c :: t :=
      List.filter_eq_self.mpr hall
    rw [List.flatten_cons, ih, ← List.cons_append, List.filter_append, hfil]

theorem joinSpec_filter (u : Unicode) (p : Char → Bool) (hp : p ' ' = false)
    (words : List GoString) :
    (joinSpec u words).filter p = words.flatten.filter p := by
  induction words with
  | nil => rfl
  | cons w ws ih =>
    cases ws with
    | nil => rw [joinSpec_single]; simp
    | cons next rest =>
      rw [joinSpec_cons_cons, List.filter_append, List.filter_append, ih, List.flatten_cons,
        List.filter_append]
      split
      · simp [hp]
      · simp

/-- C16: when the space is neither a letter, a digit nor punctuation,
`WordJoin` of the token sequence of a text returns a string, and deleting the
spaces from it gives exactly the letters, digits and punctuation characters of
the text in their order. -/
theorem WordJoin_tokens_roundtrip (u : Unicode) (input : List Char)
    (hsp : (u.IsLetter ' ' || u.IsDigit ' ' || u.IsPunct ' ') = false) :
    ∃ text, WordJoin u (tokens u input) = .ok text ∧
      text.filter (fun c => decide (c ≠ ' ')) =
        input.filter (fun c => u.IsLetter c || u.IsDigit c || u.IsPunct c) := by
  have hT := tokens_tokenized_aux u input.length input (Nat.le_refl _)
  have hne : ∀ w ∈ tokens u input, w ≠ [] := by
    intro w hw h
    rw [h] at hw
    exact tokenized_nonempty u input _ hT hw
  refine ⟨joinSpec u (tokens u input), by simpa using WordJoinLoop_eq u _ [] hne, ?_⟩
  rw [joinSpec_filter u _ (by simp), ← tokenized_flatten u input _ hT]
  apply List.filter_eq_self.mpr
  intro c hc
  obtain ⟨t, ht, hct⟩ := List.mem_flatten.mp hc
  have hcat := tokenized_chars u input _ hT t ht c hct
  simp only [decide_eq_true_eq]
  rintro rfl
  exact hcat ((accept_eq_none_iff u ' ').mpr hsp)

theorem WordJoin_tokens_roundtrip_witness :
    (Unicode.ascii.IsLetter ' ' || Unicode.ascii.IsDigit ' ' || Unicode.ascii.IsPunct ' ') =
        false ∧
      (∃ text, WordJoin .ascii (tokens .ascii "Oh  dear!+I shall be $5 late (x1).".toList) =
          .ok text ∧
        text.filter (fun c => decide (c ≠ ' ')) =
          "Oh  dear!+I shall be $5 late (x1).".toList.filter
            (fun c => Unicode.ascii.IsLetter c || Unicode.ascii.IsDigit c ||
              Unicode.ascii.IsPunct c)) ∧
      WordJoin .ascii (tokens .ascii "Oh  dear!+I shall be $5 late (x1).".toList) =
        .ok "Oh dear! I shall be 5 late(x 1).".toList :=
  ⟨by decide,
    WordJoin_tokens_roundtrip .ascii "Oh  dear!+I shall be $5 late (x1).".toList (by decide),
    by decide⟩

/-! ## Loading and saving -/

theorem loadWordRows_ok (rows : List (ID × GoString)) :
    ∀ ws : WordMap, loadWordRows ws (rows.map .ok) = (rows.foldl WordMap.addWordRow ws, none) := by
  induction rows with
  | nil => intro ws; rfl
  | cons r rest ih => intro ws; simp [loadWordRows, ih]

theorem loadNextRows_ok (rows : List (ID × ID)) :
    ∀ ws : WordMap, loadNextRows ws (rows.map .ok) = (rows.foldl WordMap.addNextRow ws, none) := by
  induction rows with
  | nil => intro ws; rfl
  | cons r rest ih => intro ws; simp [loadNextRows, ih]

theorem InitFromDB_ofRows (newRand : Int → Rand) (m : Markov) (seed : Int)
    (wr : List (ID × GoString)) (nr : List (ID × ID)) :
    Markov.InitFromDB newRand m (Store.ofRows wr nr) seed =
      ({ rand := newRand seed,
         words := nr.foldl WordMap.addNextRow (wr.foldl WordMap.addWordRow []) }, none) := by
  simp [Markov.InitFromDB, Store.ofRows, loadWordRows_ok, loadNextRows_ok]

theorem keys_set (m : WordMap) (id : ID) (w : Word) :
    (m.set id w).keys = if id ∈ m.keys then m.keys else m.keys ++ [id] := by
  by_cases h : id ∈ m.keys
  · rw [if_pos h, keys_set_of_mem m id w h]
  · rw [if_neg h, set_of_not_mem m id w h]
    simp [WordMap.keys]

theorem mem_keys_set (m : WordMap) (id : ID) (w : Word) (i : ID) :
    i ∈ (m.set id w).keys ↔ i = id ∨ i ∈ m.keys := by
  rw [keys_set]
  by_cases h : id ∈ m.keys
  · rw [if_pos h]
    constructor
    · exact Or.inr
    · rintro (rfl | h')
      · exact h
      · exact h'
  · rw [if_neg h]
    simp [or_comm]

theorem nodup_keys_set (m : WordMap) (id : ID) (w : Word) (h : m.keys.Nodup) :
    (m.set id w).keys.Nodup := by
  rw [keys_set]
  by_cases hm : id ∈ m.keys
  · rw [if_pos hm]; exact h
  · rw [if_neg hm]
    rw [List.nodup_append]
    refine ⟨h, List.nodup_singleton _, ?_⟩
    intro x hx hx'
    rw [List.mem_singleton] at hx'
    rw [hx'] at hx
    exact hm hx

theorem loadWords_keys (wr : List (ID × GoString)) :
    ∀ (ws : WordMap) (i : ID),
      i ∈ (wr.foldl WordMap.addWordRow ws).keys ↔ i ∈ ws.keys ∨ i ∈ wr.map Prod.fst := by
  induction wr with
  | nil => intro ws i; simp
  | cons r rest ih =>
    intro ws i
    rw [List.foldl_cons, ih, WordMap.addWordRow, mem_keys_set]
    simp only [List.map_cons, List.mem_cons]
    tauto

theorem loadWords_nodup (wr : List (ID × GoString)) :
    ∀ ws : WordMap, ws.keys.Nodup → (wr.foldl WordMap.addWordRow ws).keys.Nodup := by
  induction wr with
  | nil => intro ws h; exact h
  | cons r rest ih =>
    intro ws h
    rw [List.foldl_cons]
    exact ih _ (nodup_keys_set ws _ _ h)

theorem loadWords_get_of_not_mem (wr : List (ID × GoString)) :
    ∀ (ws : WordMap) (i : ID), i ∉ wr.map Prod.fst →
      (wr.foldl WordMap.addWordRow ws).get i = ws.get i := by
  induction wr with
  | nil => intro ws i _; rfl
  | cons r rest ih =>
    intro ws i hi
    simp only [List.map_cons, List.mem_cons, not_or] at hi
    rw [List.foldl_cons, ih _ i hi.2, WordMap.addWordRow, get_set, if_neg hi.1]

theorem loadWords_get_of_mem (wr : List (ID × GoString)) :
    ∀ (ws : WordMap) (i : ID) (t : GoString), (wr.map Prod.fst).Nodup → (i, t) ∈ wr →
      (wr.foldl WordMap.addWordRow ws).get i = ⟨t, []⟩ := by
  induction wr with
  | nil => intro ws i t _ h; simp at h
  | cons r rest ih =>
    intro ws i t hn h
    simp only [List.map_cons, List.nodup_cons] at hn
    rw [List.foldl_cons]
    rcases List.mem_cons.mp h with h1 | h2
    · subst h1
      rw [loadWords_get_of_not_mem rest _ _ hn.1, WordMap.addWordRow, get_set, if_pos rfl]
    · exact ih _ i t hn.2 h2

theorem loadNexts_keys (nr : List (ID × ID)) :
    ∀ (ws : WordMap) (i : ID),
      i ∈ (nr.foldl WordMap.addNextRow ws).keys ↔ i ∈ ws.keys ∨ i ∈ nr.map Prod.fst := by
  induction nr with
  | nil => intro ws i; simp
  | cons r rest ih =>
    intro ws i
    rw [List.foldl_cons, ih, WordMap.addNextRow, mem_keys_set]
    simp only [List.map_cons, List.mem_cons]
    tauto

theorem loadNexts_nodup (nr : List (ID × ID)) :
    ∀ ws : WordMap, ws.keys.Nodup → (nr.foldl WordMap.addNextRow ws).keys.Nodup := by
  induction nr with
  | nil => intro ws h; exact h
  | cons r rest ih =>
    intro ws h
    rw [List.foldl_cons]
    exact ih _ (nodup_keys_set ws _ _ h)

theorem loadNexts_word (nr : List (ID × ID)) :
    ∀ (ws : WordMap) (i : ID),
      ((nr.foldl WordMap.addNextRow ws).get i).Word = (ws.get i).Word := by
  induction nr with
  | nil => intro ws i; rfl
  | cons r rest ih =>
    intro ws i
    rw [List.foldl_cons, ih, WordMap.addNextRow, get_set]
    by_cases h : i = r.1
    · rw [if_pos h, h]
    · rw [if_neg h]

theorem loadNexts_next (nr : List (ID × ID)) :
    ∀ (ws : WordMap) (i j : ID),
      j ∈ ((nr.foldl WordMap.addNextRow ws).get i).Next ↔ j ∈ (ws.get i).Next ∨ (i, j) ∈ nr := by
  induction nr with
  | nil => intro ws i j; simp
  | cons r rest ih =>
    intro ws i j
    obtain ⟨a, b⟩ := r
    rw [List.foldl_cons, ih, WordMap.addNextRow, get_set]
    by_cases h : i = a
    · subst h
      simp only [if_true, List.mem_append, List.mem_singleton, List.mem_cons, Prod.mk.injEq,
        true_and]
      tauto
    · simp only [if_neg h, List.mem_cons, Prod.mk.injEq, h, false_and, false_or, if_false]

theorem loadWordRows_none (rows : List (Except StoreError (ID × GoString))) :
    ∀ ws : WordMap, (loadWordRows ws rows).2 = none →
      ∃ wr : List (ID × GoString), rows = wr.map .ok := by
  induction rows with
  | nil => intro _ _; exact ⟨[], rfl⟩
  | cons r rest ih =>
    intro ws h
    cases r with
    | error e => simp [loadWordRows] at h
    | ok row =>
      obtain ⟨wr, hwr⟩ := ih _ (by simpa [loadWordRows] using h)
      exact ⟨row :: wr, by rw [hwr]; rfl⟩

theorem loadNextRows_none (rows : List (Except StoreError (ID × ID))) :
    ∀ ws : WordMap, (loadNextRows ws rows).2 = none →
      ∃ nr : List (ID × ID), rows = nr.map .ok := by
  induction rows with
  | nil => intro _ _; exact ⟨[], rfl⟩
  | cons r rest ih =>
    intro ws h
    cases r with
    | error e => simp [loadNextRows] at h
    | ok row =>
      obtain ⟨nr, hnr⟩ := ih _ (by simpa [loadNextRows] using h)
      exact ⟨row :: nr, by rw [hnr]; rfl⟩

theorem InitFromDB_none (newRand : Int → Rand) (m : Markov) (db : Store) (seed : Int)
    (h : (Markov.InitFromDB newRand m db seed).2 = none) :
    ∃ wr nr, db = Store.ofRows wr nr := by
  obtain ⟨oe, wrs, nrs⟩ := db
  unfold Markov.InitFromDB at h
  cases oe with
  | some e => simp at h
  | none =>
    cases wrs with
    | error e => simp at h
    | ok wordRows =>
      simp only at h
      cases hl : loadWordRows [] wordRows with
      | mk ws err =>
        rw [hl] at h
        cases err with
        | some e => simp at h
        | none =>
          obtain ⟨wr, hwr⟩ := loadWordRows_none wordRows [] (by rw [hl])
          cases nrs with
          | error e => simp at h
          | ok nextRows =>
            simp only at h
            obtain ⟨nr, hnr⟩ := loadNextRows_none nextRows ws h
            exact ⟨wr, nr, by rw [hwr, hnr]; rfl⟩

/-- C17 (as amended): `InitFromDB` returns an error exactly when opening the
store, a query or the scan of a row fails.  When they succeed it returns no
error whatever the rows are: every edge row `(id, next)` puts `next` among the
successors of the node `id`, and when `id` is no id of the word table that
node is created with the empty text. -/
theorem InitFromDB_no_referential_check (newRand : Int → Rand) (m : Markov) (seed : Int) :
    (∀ db : Store, (Markov.InitFromDB newRand m db seed).2 = none ↔
        ∃ wr nr, db = Store.ofRows wr nr) ∧
      ∀ (wr : List (ID × GoString)) (nr : List (ID × ID)) (id nid : ID), (id, nid) ∈ nr →
        id ∈ (Markov.InitFromDB newRand m (Store.ofRows wr nr) seed).1.words.keys ∧
        nid ∈ ((Markov.InitFromDB newRand m (Store.ofRows wr nr) seed).1.words.get id).Next ∧
        (id ∉ wr.map Prod.fst →
          ((Markov.InitFromDB newRand m (Store.ofRows wr nr) seed).1.words.get id).Word = []) := by
  constructor
  · intro db
    constructor
    · exact InitFromDB_none newRand m db seed
    · rintro ⟨wr, nr, rfl⟩
      rw [InitFromDB_ofRows]
  · intro wr nr id nid hrow
    rw [InitFromDB_ofRows]
    refine ⟨?_, ?_, ?_⟩
    · exact (loadNexts_keys nr _ id).mpr (Or.inr (List.mem_map_of_mem Prod.fst hrow))
    · exact (loadNexts_next nr _ id nid).mpr (Or.inr hrow)
    · intro hid
      show ((nr.foldl WordMap.addNextRow (wr.foldl WordMap.addWordRow [])).get id).Word = []
      rw [loadNexts_word, loadWords_get_of_not_mem wr [] id hid]
      rfl

/-- C17 (as stated) fails on the word table `(0, a)` with the edge rows
`(5, 0)` and `(0, 7)`: `InitFromDB` returns no error, creates the node 5 with
the empty text and the successor 0, and gives the node 0 the successor 7,
which is no node. -/
theorem InitFromDB_dangling_counterexample :
    (Markov.InitFromDB (fun _ => ⟨fun k => k, 0⟩) ⟨⟨fun k => k, 0⟩, []⟩
        (Store.ofRows [(0, ['a'])] [(5, 0), (0, 7)]) 1).2 = none ∧
      (Markov.InitFromDB (fun _ => ⟨fun k => k, 0⟩) ⟨⟨fun k => k, 0⟩, []⟩
        (Store.ofRows [(0, ['a'])] [(5, 0), (0, 7)]) 1).1.words =
        [(0, ⟨['a'], [7]⟩), (5, ⟨[], [0]⟩)] := by
  decide

theorem mem_iff_get_nodup (m : WordMap) (hk : m.keys.Nodup) (i : ID) (w : Word) :
    (i, w) ∈ m ↔ i ∈ m.keys ∧ m.get i = w := by
  constructor
  · intro h
    exact ⟨List.mem_map_of_mem Prod.fst h, get_eq_of_mem m hk i w h⟩
  · rintro ⟨hi, rfl⟩
    exact get_mem_of_key m i hi

theorem node_iff_nodup (m : WordMap) (hk : m.keys.Nodup) (a : GoString) :
    (∃ e ∈ m, e.2.Word = a) ↔ ∃ i, i ∈ m.keys ∧ (m.get i).Word = a := by
  constructor
  · rintro ⟨⟨i, w⟩, he, ha⟩
    obtain ⟨hi, hg⟩ := (mem_iff_get_nodup m hk i w).mp he
    exact ⟨i, hi, by rw [hg]; exact ha⟩
  · rintro ⟨i, hi, ha⟩
    exact ⟨(i, m.get i), get_mem_of_key m i hi, ha⟩

theorem edge_iff_nodup (m : WordMap) (hk : m.keys.Nodup) (a b : GoString) :
    Edge m a b ↔ ∃ i j, i ∈ m.keys ∧ j ∈ m.keys ∧ (m.get i).Word = a ∧
      (m.get j).Word = b ∧ j ∈ (m.get i).Next := by
  constructor
  · rintro ⟨i, wi, j, wj, hi, hj, ha, hb, hmem⟩
    obtain ⟨hi1, hi2⟩ := (mem_iff_get_nodup m hk i wi).mp hi
    obtain ⟨hj1, hj2⟩ := (mem_iff_get_nodup m hk j wj).mp hj
    exact ⟨i, j, hi1, hj1, by rw [hi2, ha], by rw [hj2, hb], by rw [hi2]; exact hmem⟩
  · rintro ⟨i, j, hi, hj, ha, hb, hmem⟩
    exact ⟨i, m.get i, j, m.get j, get_mem_of_key m i hi, get_mem_of_key m j hj, ha, hb, hmem⟩

/-- Two node maps with the same keys, the same text under every key and the
same members of every successors list have the same node texts and the same
edges between texts. -/
theorem same_graph (m m' : WordMap) (hk : m.keys.Nodup) (hk' : m'.keys.Nodup)
    (hkeys : ∀ i, i ∈ m'.keys ↔ i ∈ m.keys)
    (hword : ∀ i, i ∈ m.keys → (m'.get i).Word = (m.get i).Word)
    (hnext : ∀ i, i ∈ m.keys → ∀ j, j ∈ (m'.get i).Next ↔ j ∈ (m.get i).Next) :
    (∀ a, (∃ e ∈ m', e.2.Word = a) ↔ ∃ e ∈ m, e.2.Word = a) ∧
      ∀ a b, Edge m' a b ↔ Edge m a b := by
  constructor
  · intro a
    rw [node_iff_nodup m' hk', node_iff_nodup m hk]
    constructor
    · rintro ⟨i, hi, ha⟩
      have hi' := (hkeys i).mp hi
      exact ⟨i, hi', by rw [← hword i hi']; exact ha⟩
    · rintro ⟨i, hi, ha⟩
      exact ⟨i, (hkeys i).mpr hi, by rw [hword i hi]; exact ha⟩
  · intro a b
    rw [edge_iff_nodup m' hk', edge_iff_nodup m hk]
    constructor
    · rintro ⟨i, j, hi, hj, ha, hb, hmem⟩
      have hi' := (hkeys i).mp hi
      have hj' := (hkeys j).mp hj
      exact ⟨i, j, hi', hj', by rw [← hword i hi']; exact ha, by rw [← hword j hj']; exact hb,
        (hnext i hi' j).mp hmem⟩
    · rintro ⟨i, j, hi, hj, ha, hb, hmem⟩
      exact ⟨i, j, (hkeys i).mpr hi, (hkeys j).mpr hj, by rw [hword i hi]; exact ha,
        by rw [hword j hj]; exact hb, (hnext i hi j).mpr hmem⟩

theorem mem_saved_words (o₁ o₂ : RangeOrder) (m : Markov) (i : ID) (t : GoString) :
    (i, t) ∈ (m.SaveToDB o₁ o₂).1 ↔ ∃ w, (i, w) ∈ m.words ∧ w.Word = t := by
  unfold Markov.SaveToDB
  simp only [List.mem_map, Prod.mk.injEq, Prod.exists]
  constructor
  · rintro ⟨k, w, he, rfl, rfl⟩
    exact ⟨w, (o₁.perm m.words).mem_iff.mp he, rfl⟩
  · rintro ⟨w, he, rfl⟩
    exact ⟨i, w, (o₁.perm m.words).mem_iff.mpr he, rfl, rfl⟩

theorem mem_saved_nexts (o₁ o₂ : RangeOrder) (m : Markov) (i j : ID) :
    (i, j) ∈ (m.SaveToDB o₁ o₂).2 ↔ ∃ w, (i, w) ∈ m.words ∧ j ∈ w.Next := by
  unfold Markov.SaveToDB
  simp only [List.mem_flatMap, List.mem_map, Prod.mk.injEq, Prod.exists]
  constructor
  · rintro ⟨k, w, he, n, hn, rfl, rfl⟩
    exact ⟨w, (o₂.perm m.words).mem_iff.mp he, hn⟩
  · rintro ⟨w, he, hj⟩
    exact ⟨i, w, (o₂.perm m.words).mem_iff.mpr he, j, hj, rfl, rfl⟩

theorem saved_ids (o₁ o₂ : RangeOrder) (m : Markov) :
    ((m.SaveToDB o₁ o₂).1.map Prod.fst).Perm m.words.keys := by
  unfold Markov.SaveToDB WordMap.keys
  rw [List.map_map]
  exact (o₁.perm m.words).map _

theorem saved_texts (o₁ o₂ : RangeOrder) (m : Markov) :
    ((m.SaveToDB o₁ o₂).1.map Prod.snd).Perm m.words.texts := by
  unfold Markov.SaveToDB WordMap.texts
  rw [List.map_map]
  exact (o₁.perm m.words).map _

theorem saved_nexts_nodup (o₁ o₂ : RangeOrder) (m : Markov) (hk : m.words.keys.Nodup)
    (hn : ∀ e ∈ m.words, e.2.Next.Nodup) : (m.SaveToDB o₁ o₂).2.Nodup := by
  unfold Markov.SaveToDB
  rw [List.nodup_flatMap]
  constructor
  · intro e he
    apply List.Nodup.map _ (hn e ((o₂.perm m.words).mem_iff.mp he))
    intro a b hab
    exact (Prod.mk.inj hab).2
  · have hv : ((o₂.visit m.words).map Prod.fst).Nodup :=
      ((o₂.perm m.words).map Prod.fst).nodup_iff.mpr hk
    rw [List.Nodup, List.pairwise_map] at hv
    refine hv.imp ?_
    intro e e' hne
    rw [Function.onFun, List.disjoint_left]
    intro r hr hr'
    obtain ⟨n, _, rfl⟩ := List.mem_map.mp hr
    obtain ⟨n', _, h'⟩ := List.mem_map.mp hr'
    exact hne (Prod.mk.inj h').1.symm

theorem roundtrip_ids (o₁ o₂ : RangeOrder) (m : Markov) (hk : m.words.keys.Nodup)
    (wr : List (ID × GoString)) (nr : List (ID × ID))
    (hwr : wr.Perm (m.SaveToDB o₁ o₂).1) (hnr : nr.Perm (m.SaveToDB o₁ o₂).2) :
    (nr.foldl WordMap.addNextRow (wr.foldl WordMap.addWordRow [])).keys.Nodup ∧
      (∀ i, i ∈ (nr.foldl WordMap.addNextRow (wr.foldl WordMap.addWordRow [])).keys ↔
        i ∈ m.words.keys) ∧
      (∀ i, i ∈ m.words.keys →
        ((nr.foldl WordMap.addNextRow (wr.foldl WordMap.addWordRow [])).get i).Word =
          (m.words.get i).Word) ∧
      ∀ i, i ∈ m.words.keys → ∀ j,
        j ∈ ((nr.foldl WordMap.addNextRow (wr.foldl WordMap.addWordRow [])).get i).Next ↔
          j ∈ (m.words.get i).Next := by
  have hids : ∀ i, i ∈ wr.map Prod.fst ↔ i ∈ m.words.keys := by
    intro i
    rw [(hwr.map Prod.fst).mem_iff, (saved_ids o₁ o₂ m).mem_iff]
  have hnodup : (wr.map Prod.fst).Nodup :=
    (hwr.map Prod.fst).nodup_iff.mpr ((saved_ids o₁ o₂ m).nodup_iff.mpr hk)
  have hrow : ∀ i j, (i, j) ∈ nr ↔ i ∈ m.words.keys ∧ j ∈ (m.words.get i).Next := by
    intro i j
    rw [hnr.mem_iff, mem_saved_nexts]
    constructor
    · rintro ⟨w, hw, hj⟩
      obtain ⟨h1, h2⟩ := (mem_iff_get_nodup m.words hk i w).mp hw
      exact ⟨h1, by rw [h2]; exact hj⟩
    · rintro ⟨hi, hj⟩
      exact ⟨m.words.get i, get_mem_of_key m.words i hi, hj⟩
  have hloaded : ∀ i, i ∈ m.words.keys →
      (wr.foldl WordMap.addWordRow []).get i = ⟨(m.words.get i).Word, []⟩ := by
    intro i hi
    apply loadWords_get_of_mem wr [] i _ hnodup
    rw [hwr.mem_iff, mem_saved_words]
    exact ⟨m.words.get i, get_mem_of_key m.words i hi, rfl⟩
  refine ⟨?_, ?_, ?_, ?_⟩
  · exact loadNexts_nodup nr _ (loadWords_nodup wr [] List.nodup_nil)
  · intro i
    rw [loadNexts_keys, loadWords_keys, hids]
    constructor
    · rintro ((h | h) | h)
      · simp [WordMap.keys] at h
      · exact h
      · obtain ⟨⟨a, b⟩, hab, rfl⟩ := List.mem_map.mp h
        exact ((hrow a b).mp hab).1
    · intro h
      exact Or.inl (Or.inr h)
  · intro i hi
    rw [loadNexts_word, hloaded i hi]
  · intro i hi j
    rw [loadNexts_next, hloaded i hi, hrow]
    simp [hi]

/-- C18: for a graph with unique keys, unique texts, no dangling edge and no
repeated successor, the rows that `SaveToDB` inserts satisfy the constraints
of the schema (unique ids, unique words, unique edge pairs, edges between ids
of the word table), and `InitFromDB` on these rows, read back in any order,
returns no error and a graph with the same node texts and the same edges
between node texts. -/
theorem save_load_roundtrip (newRand : Int → Rand) (seed : Int) (m₀ m : Markov)
    (o₁ o₂ : RangeOrder) (wr : List (ID × GoString)) (nr : List (ID × ID))
    (hk : m.words.keys.Nodup) (hu : m.words.texts.Nodup) (hd : NoDangling m.words)
    (hn : ∀ e ∈ m.words, e.2.Next.Nodup)
    (hwr : wr.Perm (m.SaveToDB o₁ o₂).1) (hnr : nr.Perm (m.SaveToDB o₁ o₂).2) :
    (((m.SaveToDB o₁ o₂).1.map Prod.fst).Nodup ∧ ((m.SaveToDB o₁ o₂).1.map Prod.snd).Nodup ∧
        (m.SaveToDB o₁ o₂).2.Nodup ∧
        ∀ r ∈ (m.SaveToDB o₁ o₂).2, r.1 ∈ (m.SaveToDB o₁ o₂).1.map Prod.fst ∧
          r.2 ∈ (m.SaveToDB o₁ o₂).1.map Prod.fst) ∧
      (Markov.InitFromDB newRand m₀ (Store.ofRows wr nr) seed).2 = none ∧
      (∀ a, (∃ e ∈ (Markov.InitFromDB newRand m₀ (Store.ofRows wr nr) seed).1.words,
          e.2.Word = a) ↔ ∃ e ∈ m.words, e.2.Word = a) ∧
      ∀ a b, Edge (Markov.InitFromDB newRand m₀ (Store.ofRows wr nr) seed).1.words a b ↔
        Edge m.words a b := by
  refine ⟨⟨?_, ?_, saved_nexts_nodup o₁ o₂ m hk hn, ?_⟩, ?_, ?_⟩
  · exact (saved_ids o₁ o₂ m).nodup_iff.mpr hk
  · exact (saved_texts o₁ o₂ m).nodup_iff.mpr hu
  · rintro ⟨i, j⟩ hr
    obtain ⟨w, hw, hj⟩ := (mem_saved_nexts o₁ o₂ m i j).mp hr
    simp only [(saved_ids o₁ o₂ m).mem_iff]
    exact ⟨List.mem_map_of_mem Prod.fst hw, hd _ hw j hj⟩
  · rw [InitFromDB_ofRows]
  · rw [InitFromDB_ofRows]
    obtain ⟨h1, h2, h3, h4⟩ := roundtrip_ids o₁ o₂ m hk wr nr hwr hnr
    exact same_graph m.words _ hk h1 h2 h3 h4

theorem save_load_roundtrip_witness :
    demoGraph.words.keys.Nodup ∧ demoGraph.words.texts.Nodup ∧ NoDangling demoGraph.words ∧
      (∀ e ∈ demoGraph.words, e.2.Next.Nodup) ∧
      ((((demoGraph.SaveToDB .storage .reversed).1.map Prod.fst).Nodup ∧
          ((demoGraph.SaveToDB .storage .reversed).1.map Prod.snd).Nodup ∧
          (demoGraph.SaveToDB .storage .reversed).2.Nodup ∧
          ∀ r ∈ (demoGraph.SaveToDB .storage .reversed).2,
            r.1 ∈ (demoGraph.SaveToDB .storage .reversed).1.map Prod.fst ∧
            r.2 ∈ (demoGraph.SaveToDB .storage .reversed).1.map Prod.fst) ∧
        (Markov.InitFromDB (fun _ => ⟨fun k => k, 0⟩) ⟨⟨fun k => k, 0⟩, []⟩
          (Store.ofRows (demoGraph.SaveToDB .storage .reversed).1.reverse
            (demoGraph.SaveToDB .storage .reversed).2.reverse) 1).2 = none ∧
        (∀ a, (∃ e ∈ (Markov.InitFromDB (fun _ => ⟨fun k => k, 0⟩) ⟨⟨fun k => k, 0⟩, []⟩
            (Store.ofRows (demoGraph.SaveToDB .storage .reversed).1.reverse
              (demoGraph.SaveToDB .storage .reversed).2.reverse) 1).1.words,
            e.2.Word = a) ↔ ∃ e ∈ demoGraph.words, e.2.Word = a) ∧
        ∀ a b, Edge (Markov.InitFromDB (fun _ => ⟨fun k => k, 0⟩) ⟨⟨fun k => k, 0⟩, []⟩
            (Store.ofRows (demoGraph.SaveToDB .storage .reversed).1.reverse
              (demoGraph.SaveToDB .storage .reversed).2.reverse) 1).1.words a b ↔
          Edge demoGraph.words a b) ∧
      (demoGraph.SaveToDB .storage .reversed).2 = [(1, 0), (1, 2), (0, 1)] ∧
      (Markov.InitFromDB (fun _ => ⟨fun k => k, 0⟩) ⟨⟨fun k => k, 0⟩, []⟩
        (Store.ofRows (demoGraph.SaveToDB .storage .reversed).1.reverse
          (demoGraph.SaveToDB .storage .reversed).2.reverse) 1).1.words =
        [(2, ⟨['c'], []⟩), (1, ⟨['a'], [2, 0]⟩), (0, ⟨['b'], [1]⟩)] :=
  ⟨by decide, by decide, by decide, by decide,
    save_load_roundtrip (fun _ => ⟨fun k => k, 0⟩) 1 ⟨⟨fun k => k, 0⟩, []⟩ demoGraph
      .storage .reversed _ _ (by decide) (by decide) (by decide) (by decide)
      (List.reverse_perm _) (List.reverse_perm _),
    by decide, by decide⟩

/-! ## Determinism and safety of generation -/

/-- C19: two sessions initialised with the same seed and fed the same text
are the same graph with the same generator, whatever the orders are in which
`findWordID` traverses the node map, so `Generate(n)` returns the same chain in
both, for every `n`, and the two chains join to the same string. -/
theorem Generate_deterministic (u : Unicode) (newRand : Int → Rand) (seed : Int)
    (input : List Char) (rt : Runtime) (n : Nat) (ords ords' : Nat → RangeOrder) :
    (Markov.Init newRand seed).Feed u ords input = (Markov.Init newRand seed).Feed u ords' input ∧
      ((Markov.Init newRand seed).Feed u ords input).GenerateWalk rt n =
        ((Markov.Init newRand seed).Feed u ords' input).GenerateWalk rt n ∧
      ((Markov.Init newRand seed).Feed u ords input).Generate rt n =
        ((Markov.Init newRand seed).Feed u ords' input).Generate rt n ∧
      ∀ (u' : Unicode) (expected : GoString),
        (((Markov.Init newRand seed).Feed u ords input).Generate rt n).bind (WordJoin u') =
            .ok expected ↔
          (((Markov.Init newRand seed).Feed u ords' input).Generate rt n).bind (WordJoin u') =
            .ok expected := by
  have h := Feed_order u ords ords' (Markov.Init newRand seed) input inv_nil
  refine ⟨h, by rw [h], by rw [h], fun u' expected => by rw [h]⟩

theorem feedToken_texts_nonempty (ords : Nat → RangeOrder) (m : Markov) (last tok : GoString)
    (hI : Inv m.words) (hT : [] ∉ m.words.texts) (htok : tok ≠ []) :
    [] ∉ (m.feedToken ords last tok).2.words.texts := by
  unfold Markov.feedToken
  by_cases hl : last ≠ []
  · rw [if_pos hl]
    show [] ∉ (m.addNext (ords 0) (ords 1) last tok).words.texts
    rw [addNext_texts _ _ m last tok hI, mem_addText, mem_addText]
    rintro ((h | h) | h)
    · exact hT h
    · exact htok h.symm
    · exact hl h.symm
  · rw [if_neg hl]
    exact hT

theorem feedTokens_texts_nonempty (toks : List GoString) :
    ∀ (ords : Nat → RangeOrder) (m : Markov) (last : GoString), Inv m.words →
      [] ∉ m.words.texts → [] ∉ toks →
      [] ∉ (Markov.feedTokens ords m last toks).words.texts := by
  induction toks with
  | nil => intro _ _ _ _ hT _; exact hT
  | cons tok rest ih =>
    intro ords m last hI hT hne
    have htok : tok ≠ [] := fun h => hne (by rw [h]; exact List.mem_cons_self _ _)
    have hrest : [] ∉ rest := fun h => hne (List.mem_cons_of_mem _ h)
    rw [Markov.feedTokens]
    exact ih _ _ _ (feedToken_inv ords m last tok hI)
      (feedToken_texts_nonempty ords m last tok hI hT htok) hrest

theorem feedReachable_inv (u : Unicode) (m : Markov) (h : FeedReachable u m) :
    Inv m.words ∧ [] ∉ m.words.texts := by
  induction h with
  | init newRand seed => exact ⟨inv_nil, by simp [Markov.Init, WordMap.texts]⟩
  | feed ords m input _ ih =>
    refine ⟨Feed_inv u ords m input ih.1, ?_⟩
    rw [Feed_eq_feedTokens]
    exact feedTokens_texts_nonempty _ ords m [] ih.1 ih.2
      (tokenized_nonempty u input _ (tokens_tokenized_aux u input.length input (Nat.le_refl _)))

theorem WordJoinLoop_panics (u : Unicode) (words : List GoString) :
    ∀ text : GoString, 2 ≤ words.length → [] ∈ words →
      WordJoinLoop u text words = .error .indexOutOfRange := by
  induction words with
  | nil => intro _ h _; simp at h
  | cons w ws ih =>
    intro text hlen hmem
    cases ws with
    | nil => simp at hlen
    | cons next rest =>
      rw [WordJoinLoop]
      cases next with
      | nil => simp [runeAt]
      | cons fc nt =>
        rw [runeAt_zero_cons]
        cases w with
        | nil => simp [runeAt]
        | cons c wt =>
          rw [runeAt_last (c :: wt) (List.cons_ne_nil _ _)]
          have hrest : [] ∈ rest := by
            simpa using hmem
          have hlen' : 2 ≤ ((fc :: nt) :: rest).length := by
            cases rest with
            | nil => simp at hrest
            | cons _ _ => simp
          have hmem' : [] ∈ (fc :: nt) :: rest := List.mem_cons_of_mem _ hrest
          simp only
          split
          · exact ih _ hlen' hmem'
          · exact ih _ hlen' hmem'

/-- C20: on a non-empty graph built from `Init` by `Feed` calls, every chain
that `Generate` returns holds only non-empty texts of nodes of the graph, so
`WordJoin` of the chain returns a string, and `Generate` returns a chain
whenever `chainLength` is within the capacity that `make` accepts; on every
list of two or more tokens that has an empty token (an empty token that is not
the last or one that is not the first) `WordJoin` panics with an index out of
range. -/
theorem Generate_texts_nonempty (u : Unicode) (m : Markov) (rt : Runtime) (n : Nat)
    (h : FeedReachable u m) (hne : 0 < m.words.length) :
    (n ≤ rt.maxCap → ∃ chain, m.Generate rt n = .ok chain ∧
        (∀ s ∈ chain, s ≠ [] ∧ ∃ e ∈ m.words, e.2.Word = s) ∧
        ∀ u' : Unicode, ∃ text, WordJoin u' chain = .ok text) ∧
      (∀ chain, m.Generate rt n = .ok chain →
        (∀ s ∈ chain, s ≠ [] ∧ ∃ e ∈ m.words, e.2.Word = s) ∧
        ∀ u' : Unicode, ∃ text, WordJoin u' chain = .ok text) ∧
      ∀ (u' : Unicode) (words : List GoString), 2 ≤ words.length → [] ∈ words →
        WordJoin u' words = .error .indexOutOfRange := by
  obtain ⟨hI, hT⟩ := feedReachable_inv u m h
  have key : n ≤ rt.maxCap → ∃ chain, m.Generate rt n = .ok chain ∧
      (∀ s ∈ chain, s ≠ [] ∧ ∃ e ∈ m.words, e.2.Word = s) ∧
      ∀ u' : Unicode, ∃ text, WordJoin u' chain = .ok text := by
    intro hcap
    obtain ⟨ids, r', h1, h2, _⟩ := GenerateWalk_spec m rt n hne hcap
    have hstart : m.rand.stream m.rand.pos % m.words.length ∈ m.words.keys :=
      (mem_keys_iff m.words hI.keys _).mpr (Nat.mod_lt _ hne)
    have hkeys := chain_keys m.words (inv_no_dangling m.words hI) _ ids hstart h2
    have hchain : ∀ s ∈ ((m.rand.stream m.rand.pos % m.words.length) :: ids).map
        (fun i => (m.words.get i).Word), s ≠ [] ∧ ∃ e ∈ m.words, e.2.Word = s := by
      intro s hs
      obtain ⟨i, hi, rfl⟩ := List.mem_map.mp hs
      have hik : i ∈ m.words.keys := by
        rcases List.mem_cons.mp hi with rfl | hi'
        · exact hstart
        · exact hkeys i hi'
      have hmem := get_mem_of_key m.words i hik
      refine ⟨?_, ⟨_, hmem, rfl⟩⟩
      intro h0
      apply hT
      rw [← h0]
      exact List.mem_map_of_mem (fun e : ID × Word => e.2.Word) hmem
    refine ⟨_, Generate_of_walk m rt n _ _ _ h1, hchain, ?_⟩
    intro u'
    exact ⟨_, by simpa using WordJoinLoop_eq u' _ [] (fun w hw => (hchain w hw).1)⟩
  refine ⟨key, ?_, ?_⟩
  · intro chain hchain
    obtain ⟨chain', h1, h2⟩ := key (Generate_ok_cap m rt n chain hchain).2
    rw [hchain] at h1
    injection h1 with h1
    subst h1
    exact h2
  · intro u' words hlen hmem
    exact WordJoinLoop_panics u' words [] hlen hmem

theorem Generate_texts_nonempty_witness :
    FeedReachable .ascii
        ((Markov.Init (fun _ => ⟨fun k => k + 1, 0⟩) 9).Feed .ascii (fun _ => .storage)
          ['a', ' ', 'b', '.', ' ', 'a']) ∧
      0 < ((Markov.Init (fun _ => ⟨fun k => k + 1, 0⟩) 9).Feed .ascii (fun _ => .storage)
        ['a', ' ', 'b', '.', ' ', 'a']).words.length ∧
      (((4 : Nat) ≤ Runtime.amd64.maxCap →
          ∃ chain, ((Markov.Init (fun _ => ⟨fun k => k + 1, 0⟩) 9).Feed .ascii
            (fun _ => .storage) ['a', ' ', 'b', '.', ' ', 'a']).Generate .amd64 4 = .ok chain ∧
          (∀ s ∈ chain, s ≠ [] ∧
            ∃ e ∈ ((Markov.Init (fun _ => ⟨fun k => k + 1, 0⟩) 9).Feed .ascii
              (fun _ => .storage) ['a', ' ', 'b', '.', ' ', 'a']).words, e.2.Word = s) ∧
          ∀ u' : Unicode, ∃ text, WordJoin u' chain = .ok text) ∧
        (∀ chain, ((Markov.Init (fun _ => ⟨fun k => k + 1, 0⟩) 9).Feed .ascii
            (fun _ => .storage) ['a', ' ', 'b', '.', ' ', 'a']).Generate .amd64 4 = .ok chain →
          (∀ s ∈ chain, s ≠ [] ∧
            ∃ e ∈ ((Markov.Init (fun _ => ⟨fun k => k + 1, 0⟩) 9).Feed .ascii
              (fun _ => .storage) ['a', ' ', 'b', '.', ' ', 'a']).words, e.2.Word = s) ∧
          ∀ u' : Unicode, ∃ text, WordJoin u' chain = .ok text) ∧
        ∀ (u' : Unicode) (words : List GoString), 2 ≤ words.length → [] ∈ words →
          WordJoin u' words = .error .indexOutOfRange) ∧
      (4 : Nat) ≤ Runtime.amd64.maxCap ∧
      ((Markov.Init (fun _ => ⟨fun k => k + 1, 0⟩) 9).Feed .ascii (fun _ => .storage)
        ['a', ' ', 'b', '.', ' ', 'a']).Generate .amd64 4 = .ok [['a'], ['b'], ['.'], ['a']] ∧
      WordJoin .ascii [['a'], []] = .error .indexOutOfRange ∧
      WordJoin .ascii [[], ['a']] = .error .indexOutOfRange :=
  ⟨.feed _ _ _ (.init _ _), by decide,
    Generate_texts_nonempty .ascii _ .amd64 4 (.feed _ _ _ (.init _ _)) (by decide),
    by decide, by decide, by decide, by decide⟩

end mrkv
